import Mathlib

/-!
jfmt: a verification development of `main.go`.

Go strings and `[]byte` values are modelled as lists of bytes, a byte being a
natural number below 256.  Go's `int` is 64 bits wide; the counters of this
program are bounded by the length of an input held in memory, so they are
modelled by unbounded numbers.
-/

namespace Jfmt

/-! ## ANSI colour codes (`const` block of `main.go`) -/

/-- The constant `colorReset`, the bytes of `"\033[0m"`. -/
def colorReset : List Nat := [27, 91, 48, 109]

/-- The constant `colorKey`, the bytes of `"\033[38;5;75m"`. -/
def colorKey : List Nat := [27, 91, 51, 56, 59, 53, 59, 55, 53, 109]

/-- The constant `colorString`, the bytes of `"\033[38;5;114m"`. -/
def colorString : List Nat := [27, 91, 51, 56, 59, 53, 59, 49, 49, 52, 109]

/-- The constant `colorNumber`, the bytes of `"\033[38;5;209m"`. -/
def colorNumber : List Nat := [27, 91, 51, 56, 59, 53, 59, 50, 48, 57, 109]

/-- The constant `colorBool`, the bytes of `"\033[38;5;170m"`. -/
def colorBool : List Nat := [27, 91, 51, 56, 59, 53, 59, 49, 55, 48, 109]

/-- The constant `colorNull`, the bytes of `"\033[38;5;245m"`. -/
def colorNull : List Nat := [27, 91, 51, 56, 59, 53, 59, 50, 52, 53, 109]

/-- The constant `colorBrace`, the bytes of `"\033[38;5;248m"`. -/
def colorBrace : List Nat := [27, 91, 51, 56, 59, 53, 59, 50, 52, 56, 109]

/-! ## `colorize` -/

/-- Go's conversion `string(c)` of a byte `c`: the UTF-8 encoding of the code
point `c` (one byte below 0x80, the two bytes `0xC0 | c>>6`, `0x80 | c&0x3F`
from 0x80 on). -/
def byteToString (c : Nat) : List Nat :=
  if c < 128 then [c] else [192 + c / 64, 128 + c % 64]

/-- The inner lookahead loop `for k := j + 1; k < len(s); k++`, run over the
bytes `s[j+1:]`: `true` when a `':'` is met before any byte other than space,
tab and newline. -/
def colonFollows : List Nat → Bool
  | [] => false
  | c :: rest =>
    if c = 58 then true
    else if c ≠ 32 ∧ c ≠ 9 ∧ c ≠ 10 then false
    else colonFollows rest

/-- The outer lookahead loop `for j := i + 1; j < len(s); j++`, run over the
bytes `s[i+1:]`: stops at the first `'"'` and reports what the inner loop
finds after it; the value is the `isKey` flag. -/
def lookaheadIsKey : List Nat → Bool
  | [] => false
  | c :: rest => if c = 34 then colonFollows rest else lookaheadIsKey rest

/-- The test `c >= '0' && c <= '9' || c == '-' || c == '.'` of the number case. -/
def isNumberStart (c : Nat) : Bool :=
  (48 ≤ c && c ≤ 57) || c = 45 || c = 46

/-- The test of the number-run loop: `0-9`, `'.'`, `'-'`, `'e'`, `'E'`, `'+'`. -/
def isNumberChar (c : Nat) : Bool :=
  (48 ≤ c && c ≤ 57) || c = 46 || c = 45 || c = 101 || c = 69 || c = 43

/-- The bytes the number-run loop walks over, given `s[i:]`. -/
def numberRun (rest : List Nat) : List Nat := rest.takeWhile isNumberChar

/-- The bytes of `"true"`. -/
def litTrue : List Nat := [116, 114, 117, 101]

/-- The bytes of `"false"`. -/
def litFalse : List Nat := [102, 97, 108, 115, 101]

/-- The bytes of `"null"`. -/
def litNull : List Nat := [110, 117, 108, 108]

/-- The local variables of `colorize`: the cursor `i`, the flags `inString`
and `isKey`, and the contents of the `strings.Builder`. -/
structure ScanState where
  i : Nat
  inString : Bool
  isKey : Bool
  result : List Nat
deriving DecidableEq, Repr

/-- One iteration of the main loop of `colorize`, entered with `i < len(s)`.
`none` stands for the run-time panic of an index out of range. -/
def colorizeStep (s : List Nat) (st : ScanState) : Option ScanState :=
  match s[st.i]? with
  | none => none
  | some c =>
    if c = 34 then
      if st.inString then
        some { st with
          result := st.result ++ byteToString c ++ colorReset
          inString := false
          i := st.i + 1 }
      else
        let isKey := lookaheadIsKey (s.drop (st.i + 1))
        some {
          i := st.i + 1
          inString := true
          isKey := isKey
          result := st.result ++ (if isKey then colorKey else colorString) ++ byteToString c }
    else if st.inString then
      some { st with result := st.result ++ byteToString c, i := st.i + 1 }
    else if c = 123 ∨ c = 125 ∨ c = 91 ∨ c = 93 then
      some { st with
        result := st.result ++ colorBrace ++ byteToString c ++ colorReset
        i := st.i + 1 }
    else if isNumberStart c then
      let run := numberRun (s.drop st.i)
      some { st with
        result := st.result ++ colorNumber ++ run.flatMap byteToString ++ colorReset
        i := st.i + run.length }
    else if litTrue.isPrefixOf (s.drop st.i) then
      some { st with result := st.result ++ colorBool ++ litTrue ++ colorReset, i := st.i + 4 }
    else if litFalse.isPrefixOf (s.drop st.i) then
      some { st with result := st.result ++ colorBool ++ litFalse ++ colorReset, i := st.i + 5 }
    else if litNull.isPrefixOf (s.drop st.i) then
      some { st with result := st.result ++ colorNull ++ litNull ++ colorReset, i := st.i + 4 }
    else
      some { st with result := st.result ++ byteToString c, i := st.i + 1 }

/-- The main loop `for i < len(s)` of `colorize`, with a bound on the number
of iterations; `none` when an iteration panics or the bound is used up before
the loop condition fails. -/
def colorizeLoop (s : List Nat) : Nat → ScanState → Option ScanState
  | 0, st => if st.i < s.length then none else some st
  | fuel + 1, st =>
    if st.i < s.length then (colorizeStep s st).bind (colorizeLoop s fuel) else some st

/-- The state `colorize` starts from. -/
def initState : ScanState := { i := 0, inString := false, isKey := false, result := [] }

/-- The function `colorize`: at most `len(s)` iterations are allowed for, and
the value is the string built. -/
def colorize (s : List Nat) : Option (List Nat) :=
  (colorizeLoop s s.length initState).map (·.result)

/-- The first `n` iterations of the main loop of `colorize` from a state. -/
def colorizeIter (s : List Nat) : Nat → ScanState → Option ScanState
  | 0, st => some st
  | n + 1, st => (colorizeStep s st).bind (colorizeIter s n)

/-! ### Specification-side notions for `colorize` -/

/-- The colour and reset markers `colorize` can insert. -/
def markers : List (List Nat) :=
  [colorReset, colorKey, colorString, colorNumber, colorBool, colorNull, colorBrace]

/-- The length of the marker a text starts with, if it starts with one. -/
def markerAt (t : List Nat) : Option Nat :=
  (markers.find? (fun m => m.isPrefixOf t)).map List.length

/-- Deleting every colour and reset marker from a text, read left to right;
the first argument counts the bytes of the current marker still to delete. -/
def stripAux : Nat → List Nat → List Nat
  | _, [] => []
  | k + 1, _ :: t => stripAux k t
  | 0, c :: t =>
    match markerAt (c :: t) with
    | some n => stripAux (n - 1) t
    | none => c :: stripAux 0 t

/-- The text that remains when every colour and reset marker is deleted. -/
def stripMarkers (t : List Nat) : List Nat := stripAux 0 t

/-- Space, tab or newline. -/
def isBlank (c : Nat) : Bool := c = 32 || c = 9 || c = 10

/-- The text after the closing quote that matches an opening quote, given the
text after the opening quote; a backslash escapes the byte after it. -/
def afterClosingQuote : List Nat → Option (List Nat)
  | [] => none
  | [c] => if c = 34 then some [] else none
  | c :: d :: rest =>
    if c = 92 then afterClosingQuote rest
    else if c = 34 then some (d :: rest)
    else afterClosingQuote (d :: rest)

/-- Whether the first non-whitespace byte of a text is `':'`. -/
def colonIsNext (after : List Nat) : Bool :=
  (after.dropWhile isBlank).head? = some 58

/-- The classification of a string literal, given the text after its opening
quote: a key when the first non-whitespace byte after the matching closing
quote is `':'`. -/
def keyBySpec (afterOpen : List Nat) : Bool :=
  match afterClosingQuote afterOpen with
  | none => false
  | some after => colonIsNext after

/-! ### Sample texts -/

/-- The bytes of the JSON text `"é"` (the letter in UTF-8 is `C3 A9`). -/
def docEAcute : List Nat := [34, 195, 169, 34]

/-- The bytes of the line `"name": "Bob"`. -/
def docNameBob : List Nat := [34, 110, 97, 109, 101, 34, 58, 32, 34, 66, 111, 98, 34]

/-- The bytes of the JSON text `{"a\"b":1}`, an object whose one key is `a"b`. -/
def docEscapedKey : List Nat := [123, 34, 97, 92, 34, 98, 34, 58, 49, 125]

/-- The bytes of the JSON text `"\"1"`, the string `"1`. -/
def docEscapedValue : List Nat := [34, 92, 34, 49, 34]

/-- The bytes of `-3.14e+10`. -/
def docNumber : List Nat := [45, 51, 46, 49, 52, 101, 43, 49, 48]

/-! ## `findPosition` and `printErrorContext` -/

/-- The loop `for i := 0; i < offset && i < len(input); i++` of
`findPosition`, run over the bytes `input[i:]` with the current values of
`i`, `line` and `col`. -/
def findPositionFrom (offset : Int) : List Nat → Nat → Int → Int → Int × Int
  | [], _, line, col => (line, col)
  | c :: rest, i, line, col =>
    if (i : Int) < offset then
      if c = 10 then findPositionFrom offset rest (i + 1) (line + 1) 1
      else findPositionFrom offset rest (i + 1) line (col + 1)
    else (line, col)

/-- The function `findPosition`: the pair `(line, col)`. -/
def findPosition (input : List Nat) (offset : Int) : Int × Int :=
  findPositionFrom offset input 0 1 1

/-- Go's `strings.Split(s, "\n")`: the pieces of `s` between newline bytes,
always at least one piece. -/
def splitLines : List Nat → List (List Nat)
  | [] => [[]]
  | c :: cs =>
    if c = 10 then [] :: splitLines cs
    else
      match splitLines cs with
      | [] => [[c]]
      | l :: ls => (c :: l) :: ls

/-- The bytes of the caret text `"\033[31m^\033[0m"`. -/
def caretText : List Nat := [27, 91, 51, 49, 109, 94, 27, 91, 48, 109]

/-- The function `printErrorContext`: the bytes written to standard error.
`none` stands for a run-time panic: the index `line-1` out of range, or a
negative count given to `strings.Repeat`. -/
def printErrorContext (input : List Nat) (offset : Int) : Option (List Nat) :=
  let lines := splitLines input
  let (line, col) := findPosition input offset
  if line ≤ (lines.length : Int) then
    if line - 1 < 0 then none
    else
      match lines[(line - 1).toNat]? with
      | none => none
      | some lineContent =>
        if col - 1 < 0 then none
        else
          some ([32, 32] ++ lineContent ++ [10]
            ++ [32, 32] ++ List.replicate (col - 1).toNat 32 ++ caretText ++ [10])
  else some []

/-! ### Specification-side notions for `findPosition` -/

/-- The offset clamped to the input: `min(max(offset, 0), len(input))`. -/
def clampOffset (input : List Nat) (offset : Int) : Nat :=
  min (max offset 0).toNat input.length

/-- The number of newline bytes of a text. -/
def newlineCount (l : List Nat) : Nat := l.count 10

/-- The number of bytes of a text after its last newline, the length of the
text when it has no newline. -/
def bytesAfterLastNewline (l : List Nat) : Nat :=
  (l.reverse.takeWhile (fun c => c ≠ 10)).length

/-- The bytes of the invalid document `{"a":}`. -/
def docMissingValue : List Nat := [123, 34, 97, 34, 58, 125]

/-- The bytes of a two-line text, `{` and `x` separated by a newline. -/
def docTwoLines : List Nat := [123, 10, 120]

/-! ## `sortKeys` -/

/-- A decoded value, as `json.Unmarshal` stores it in an `any`: `nil`, `bool`,
`float64`, `string`, `[]any` or `map[string]any`.  A number carries its
`float64` as an uninterpreted payload, a string and a key their bytes.  A map
is given by the list of its entries; a Go map has no order of its own (the
order of a `range` loop over it is unspecified), and the order of the list
stands for the order in which a `range` loop happens to visit the entries. -/
inductive JValue where
  | null : JValue
  | bool (b : Bool) : JValue
  | number (n : Nat) : JValue
  | string (s : List Nat) : JValue
  | array (xs : List JValue) : JValue
  | object (m : List (List Nat × JValue)) : JValue

/-- The map assignment `sorted[k] = v`: the entry of `k` is replaced, or a new
entry is added when the map has none for `k`. -/
def mapSet (m : List (List Nat × JValue)) (k : List Nat) (v : JValue) :
    List (List Nat × JValue) :=
  match m with
  | [] => [(k, v)]
  | (k2, v2) :: rest => if k2 = k then (k, v) :: rest else (k2, v2) :: mapSet rest k v

mutual
/-- The function `sortKeys`: a map is rebuilt entry by entry in a fresh map,
a slice has each element replaced, any other value is returned as it is. -/
def sortKeys : JValue → JValue
  | .object m => .object (sortKeysFields m [])
  | .array xs => .array (sortKeysElems xs)
  | v => v
/-- The loop `for i, val := range vv` over a slice: `vv[i] = sortKeys(val)`. -/
def sortKeysElems : List JValue → List JValue
  | [] => []
  | x :: xs => sortKeys x :: sortKeysElems xs
/-- The loop `for k, val := range vv` over the entries of a map still to
visit, with the map `sorted` built so far: `sorted[k] = sortKeys(val)`. -/
def sortKeysFields : List (List Nat × JValue) → List (List Nat × JValue) →
    List (List Nat × JValue)
  | [], sorted => sorted
  | (k, val) :: rest, sorted => sortKeysFields rest (mapSet sorted k (sortKeys val))
end

/-! ### Specification-side notions for `sortKeys` -/

/-- The order of Go strings, byte by byte: `a <= b`. -/
def keyLe : List Nat → List Nat → Bool
  | [], _ => true
  | _ :: _, [] => false
  | a :: as, b :: bs => if a < b then true else if b < a then false else keyLe as bs

/-- A list of keys in non-decreasing lexicographic order. -/
def keysNonDecreasing (ks : List (List Nat)) : Prop :=
  ks.Pairwise (fun a b => keyLe a b = true)

instance (ks : List (List Nat)) : Decidable (keysNonDecreasing ks) := by
  unfold keysNonDecreasing
  infer_instance

mutual
/-- The objects of a value at every nesting depth, each as its entries. -/
def objectsOf : JValue → List (List (List Nat × JValue))
  | .object m => m :: objectsOfFields m
  | .array xs => objectsOfElems xs
  | _ => []
/-- The objects inside the elements of an array. -/
def objectsOfElems : List JValue → List (List (List Nat × JValue))
  | [] => []
  | x :: xs => objectsOf x ++ objectsOfElems xs
/-- The objects inside the values of the entries of an object. -/
def objectsOfFields : List (List Nat × JValue) → List (List (List Nat × JValue))
  | [] => []
  | (_, v) :: rest => objectsOf v ++ objectsOfFields rest
end

mutual
/-- A value all of whose maps, at every depth, have pairwise distinct keys,
as every Go map has. -/
def DistinctKeys : JValue → Prop
  | .object m => (m.map Prod.fst).Nodup ∧ DistinctKeysFields m
  | .array xs => DistinctKeysElems xs
  | _ => True
/-- Distinct keys in every element of an array. -/
def DistinctKeysElems : List JValue → Prop
  | [] => True
  | x :: xs => DistinctKeys x ∧ DistinctKeysElems xs
/-- Distinct keys in every value of the entries of an object. -/
def DistinctKeysFields : List (List Nat × JValue) → Prop
  | [] => True
  | (_, v) :: rest => DistinctKeys v ∧ DistinctKeysFields rest
end

/-- The decoded value of `{"b":2,"a":1}`, its entries in the order `b`, `a`. -/
def valueBA : JValue := .object [([98], .number 2), ([97], .number 1)]

/-! ## `fixJSON` -/

/-- The class `\s` of Go regular expressions: tab, newline, form feed,
carriage return and space. -/
def isSpace (c : Nat) : Bool := c = 9 || c = 10 || c = 12 || c = 13 || c = 32

/-- The class `[^']` of the patterns: any byte but the single quote. -/
def notSingleQuote (c : Nat) : Bool := c != 39

/-- Go's `(*Regexp).ReplaceAllString` for a pattern that matches no empty
text: the text is read from left to right; where a match begins, its
replacement is written and the reading goes on after the match; elsewhere the
byte is copied.  `matchAt` gives, for a match of the pattern that begins the
text, the replacement and the length of the match; the first argument counts
the bytes of the current match still to pass over. -/
def replaceAllAux (matchAt : List Nat → Option (List Nat × Nat)) : Nat → List Nat → List Nat
  | _, [] => []
  | k + 1, _ :: t => replaceAllAux matchAt k t
  | 0, c :: t =>
    match matchAt (c :: t) with
    | some (repl, n) => repl ++ replaceAllAux matchAt (n - 1) t
    | none => c :: replaceAllAux matchAt 0 t

/-- The replacement of every match, from the start of a text. -/
def replaceAll (matchAt : List Nat → Option (List Nat × Nat)) (s : List Nat) : List Nat :=
  replaceAllAux matchAt 0 s

/-- The pattern `re`, a comma, then the group `\s*[}\]]`, matched at the
start of a text, with the template `$1`: the replacement is the group. -/
def matchTrailingComma : List Nat → Option (List Nat × Nat)
  | [] => none
  | c :: r =>
    if c = 44 then
      match r.dropWhile isSpace with
      | [] => none
      | b :: _ =>
        if b = 125 ∨ b = 93 then
          some (r.takeWhile isSpace ++ [b], (r.takeWhile isSpace).length + 2)
        else none
    else none

/-- The pattern `re2`, `'([^']*)'(\s*:)`, matched at the start of a text, with
the template `"$1"$2`. -/
def matchQuotedKey : List Nat → Option (List Nat × Nat)
  | [] => none
  | c :: r =>
    if c = 39 then
      match r.dropWhile notSingleQuote with
      | [] => none
      | _ :: a =>
        match a.dropWhile isSpace with
        | [] => none
        | d :: _ =>
          if d = 58 then
            some ([34] ++ r.takeWhile notSingleQuote ++ [34] ++ a.takeWhile isSpace ++ [58],
              (r.takeWhile notSingleQuote).length + (a.takeWhile isSpace).length + 3)
          else none
    else none

/-- The pattern `re3`, `:\s*'([^']*)'`, matched at the start of a text, with
the template `: "$1"`. -/
def matchQuotedValue : List Nat → Option (List Nat × Nat)
  | [] => none
  | c :: r =>
    if c = 58 then
      match r.dropWhile isSpace with
      | [] => none
      | q :: b =>
        if q = 39 then
          match b.dropWhile notSingleQuote with
          | [] => none
          | _ :: _ =>
            some ([58, 32, 34] ++ b.takeWhile notSingleQuote ++ [34],
              (r.takeWhile isSpace).length + (b.takeWhile notSingleQuote).length + 3)
        else none
    else none

/-- The function `fixJSON`: the three replacements, one after the other. -/
def fixJSON (input : List Nat) : List Nat :=
  replaceAll matchQuotedValue (replaceAll matchQuotedKey (replaceAll matchTrailingComma input))

/-! ### Specification-side notions for `fixJSON` -/

/-- Whether a comma followed by this text is a trailing comma: optional
whitespace, then `'}'` or `']'`. -/
def commaIsTrailing (rest : List Nat) : Bool :=
  match rest.dropWhile isSpace with
  | [] => false
  | b :: _ => b = 125 || b = 93

/-- The text with its trailing commas deleted and every other byte kept. -/
def deleteTrailingCommas : List Nat → List Nat
  | [] => []
  | c :: rest =>
    if c = 44 ∧ commaIsTrailing rest = true then deleteTrailingCommas rest
    else c :: deleteTrailingCommas rest

/-- The bytes of `{"a":1,}`. -/
def docTrailingComma : List Nat := [123, 34, 97, 34, 58, 49, 44, 125]

/-- The bytes of `{'a': 'x'}`. -/
def docSingleQuotes : List Nat := [123, 39, 97, 39, 58, 32, 39, 120, 39, 125]

/-- The bytes of `{"a": "x: 'y'"}`. -/
def docApostrophes : List Nat :=
  [123, 34, 97, 34, 58, 32, 34, 120, 58, 32, 39, 121, 39, 34, 125]

/-- The text `{'k': 'v'}` for a key `k` and a value `v`. -/
def singleQuoted (k v : List Nat) : List Nat :=
  [123, 39] ++ k ++ [39, 58, 32, 39] ++ v ++ [39, 125]

/-- The text `{"k": "v"}` for a key `k` and a value `v`. -/
def doubleQuoted (k v : List Nat) : List Nat :=
  [123, 34] ++ k ++ [34, 58, 32, 34] ++ v ++ [34, 125]

/-- A byte other than the single quote, the double quote, the comma, the colon
and the backslash. -/
def isQuoteFree (c : Nat) : Bool := c ≠ 39 && c ≠ 34 && c ≠ 44 && c ≠ 58 && c ≠ 92

/-- JSON whitespace: space, tab, newline and carriage return. -/
def isJsonSpace (c : Nat) : Bool := c = 32 || c = 9 || c = 10 || c = 13

/-- A continuation byte of UTF-8: `0x80` to `0xBF`. -/
def isContinuation (c : Nat) : Bool := 128 ≤ c && c ≤ 191

/-- For the first byte of a UTF-8 sequence of two to four bytes, the length of
the sequence and the bounds of its second byte, as in the table of Go's
`unicode/utf8`: `C2..DF` two bytes; `E0` three, second byte `A0..BF`;
`E1..EC`, `EE`, `EF` three; `ED` three, second byte `80..9F`; `F0` four,
second byte `90..BF`; `F1..F3` four; `F4` four, second byte `80..8F`.  Every
other byte begins no sequence. -/
def utf8Lead (c : Nat) : Option (Nat × Nat × Nat) :=
  if 194 ≤ c ∧ c ≤ 223 then some (2, 128, 191)
  else if c = 224 then some (3, 160, 191)
  else if (225 ≤ c ∧ c ≤ 236) ∨ c = 238 ∨ c = 239 then some (3, 128, 191)
  else if c = 237 then some (3, 128, 159)
  else if c = 240 then some (4, 144, 191)
  else if 241 ≤ c ∧ c ≤ 243 then some (4, 128, 191)
  else if c = 244 then some (4, 128, 143)
  else none

/-- Whether a text starts with `n` continuation bytes. -/
def continuations : Nat → List Nat → Bool
  | 0, _ => true
  | _ + 1, [] => false
  | n + 1, c :: t => isContinuation c && continuations n t

/-- Go's `utf8.DecodeRune` on a text whose first byte is `0x80` or more: the
width of the well-formed sequence the text starts with, and 0 when it starts
with none (the byte is then decoded alone, as U+FFFD). -/
def utf8SeqLen : List Nat → Nat
  | [] => 0
  | [_] => 0
  | c0 :: c1 :: t =>
    match utf8Lead c0 with
    | none => 0
    | some (n, lo, hi) =>
      if lo ≤ c1 ∧ c1 ≤ hi ∧ continuations (n - 2) t = true then n else 0

/-- Well-formed UTF-8: the text is a sequence of ASCII bytes and well-formed
sequences of two to four bytes; the first argument counts the bytes of the
current sequence still to pass over. -/
def wellFormedUtf8Aux : Nat → List Nat → Bool
  | 0, [] => true
  | _ + 1, [] => false
  | k + 1, _ :: t => wellFormedUtf8Aux k t
  | 0, c :: t =>
    if c < 128 then wellFormedUtf8Aux 0 t
    else utf8SeqLen (c :: t) != 0 && wellFormedUtf8Aux (utf8SeqLen (c :: t) - 1) t

/-- A text that is well-formed UTF-8. -/
def isWellFormedUtf8 (l : List Nat) : Bool := wellFormedUtf8Aux 0 l

/-- The external strict JSON parser (Go's `encoding/json`) decoding a string
literal, from the text after its opening quote; the first argument counts the
bytes of the current UTF-8 sequence still to copy.  The value is the decoded
content up to the closing quote and the text after it: an ASCII byte and a
well-formed UTF-8 sequence are copied, a byte from `0x80` on that begins no
well-formed sequence is decoded as U+FFFD (`EF BF BD`).  There is none when
the text ends first or when a control character (a byte below 0x20) stands
in the literal, which the parser rejects; a literal with a backslash, whose
escape sequences are not followed up here, gives none as well. -/
def scanPlainAux : Nat → List Nat → Option (List Nat × List Nat)
  | _, [] => none
  | k + 1, c :: t => (scanPlainAux k t).map (fun p => (c :: p.1, p.2))
  | 0, c :: t =>
    if c = 34 then some ([], t)
    else if c < 32 ∨ c = 92 then none
    else if c < 128 then (scanPlainAux 0 t).map (fun p => (c :: p.1, p.2))
    else if utf8SeqLen (c :: t) = 0 then
      (scanPlainAux 0 t).map (fun p => ([239, 191, 189] ++ p.1, p.2))
    else (scanPlainAux (utf8SeqLen (c :: t) - 1) t).map (fun p => (c :: p.1, p.2))

/-- The decoding of a string literal, from the text after its opening quote. -/
def scanPlainString (t : List Nat) : Option (List Nat × List Nat) := scanPlainAux 0 t

/-- A hexadecimal digit: `0-9`, `a-f`, `A-F`. -/
def isHexDigit (c : Nat) : Bool :=
  (48 ≤ c && c ≤ 57) || (97 ≤ c && c ≤ 102) || (65 ≤ c && c ≤ 70)

/-- The scanner of Go's `encoding/json` inside a string literal, from the text
after the opening quote, in the state given: 0 inside the string
(`stateInString`), 1 after a backslash (`stateInStringEsc`), 5 down to 2 with
four down to one hexadecimal digits of a `\u` escape still to come.  The
value is the text after the closing quote; there is none when the scanner
reports an error (a control character in the string, a wrong escape) or the
text ends inside the literal: the text is then not valid JSON. -/
def scanStringLiteral : Nat → List Nat → Option (List Nat)
  | _, [] => none
  | 0, c :: t =>
    if c = 34 then some t
    else if c = 92 then scanStringLiteral 1 t
    else if c < 32 then none
    else scanStringLiteral 0 t
  | 1, c :: t =>
    if c = 98 ∨ c = 102 ∨ c = 110 ∨ c = 114 ∨ c = 116 ∨ c = 92 ∨ c = 47 ∨ c = 34 then
      scanStringLiteral 0 t
    else if c = 117 then scanStringLiteral 5 t
    else none
  | k + 2, c :: t =>
    if isHexDigit c then scanStringLiteral (if k = 0 then 0 else k + 1) t else none

/-- A text with a given byte as its first byte other than JSON whitespace;
the value is the text after that byte. -/
def expectByte (b : Nat) (t : List Nat) : Option (List Nat) :=
  match t.dropWhile isJsonSpace with
  | [] => none
  | c :: rest => if c = b then some rest else none

/-- The external strict JSON parser (Go's `encoding/json`) on the text of an
object with one member whose key and value are string literals without
escape sequences: the key and the value as decoded, none for any other text. -/
def parseStringPair (t : List Nat) : Option (List Nat × List Nat) :=
  (expectByte 123 t).bind fun t1 =>
  (expectByte 34 t1).bind fun t2 =>
  (scanPlainString t2).bind fun kr =>
  (expectByte 58 kr.2).bind fun t3 =>
  (expectByte 34 t3).bind fun t4 =>
  (scanPlainString t4).bind fun vr =>
  (expectByte 125 vr.2).bind fun t5 =>
  if t5.dropWhile isJsonSpace = [] then some (kr.1, vr.1) else none

/-- The bytes of `ab`. -/
def docAB : List Nat := [97, 98]

/-! ## `parseArgs` -/

/-- The package-level flag variables. -/
structure Flags where
  flagCompact : Bool
  flagSortKeys : Bool
  flagCopy : Bool
  flagFix : Bool
  flagNoColor : Bool
  flagHelp : Bool
  flagMonochrome : Bool
deriving DecidableEq, Repr

/-- The `switch c` of `parseArgs` on one character of a flag bundle.  The
loop `for _, c := range arg[1:]` walks over characters; the six characters of
the switch are ASCII, no byte of a longer character equals one of them, and
the loop is modelled over bytes. -/
def setFlag (f : Flags) (c : Nat) : Flags :=
  if c = 99 then { f with flagCompact := true }
  else if c = 115 then { f with flagSortKeys := true }
  else if c = 67 then { f with flagCopy := true }
  else if c = 102 then { f with flagFix := true }
  else if c = 109 then { f with flagMonochrome := true }
  else if c = 104 then { f with flagHelp := true }
  else f

/-- Go's `strings.HasPrefix(s, prefix)`. -/
def hasPrefix (s pre : List Nat) : Bool := pre.isPrefixOf s

/-- The loop `for i := 0; i < len(args); i++` of `parseArgs`, over the
arguments still to read, with the flags and the slice `remaining` so far. -/
def parseArgsLoop : List (List Nat) → Flags → List (List Nat) → Flags × List (List Nat)
  | [], f, remaining => (f, remaining)
  | arg :: rest, f, remaining =>
    if hasPrefix arg [45] && !hasPrefix arg [104, 116, 116, 112] then
      parseArgsLoop rest ((arg.drop 1).foldl setFlag f) remaining
    else
      parseArgsLoop rest f (remaining ++ [arg])

/-- The function `parseArgs`, from the flags as they are before the call and
the value of the environment variable `NO_COLOR`: the flags after the call
and the slice returned. -/
def parseArgs (args : List (List Nat)) (noColorEnv : List Nat) (f : Flags) :
    Flags × List (List Nat) :=
  let r := parseArgsLoop args f []
  (if noColorEnv ≠ [] then { r.1 with flagNoColor := true } else r.1, r.2)

/-! ### Specification-side notions for `parseArgs` -/

/-- Whether some argument that begins with `'-'` holds the character `c`
after its leading `'-'`. -/
def flagGiven (args : List (List Nat)) (c : Nat) : Bool :=
  args.any (fun a => a.head? = some 45 && (a.drop 1).contains c)

/-- All flags off, as when the program starts. -/
def noFlags : Flags :=
  { flagCompact := false, flagSortKeys := false, flagCopy := false, flagFix := false,
    flagNoColor := false, flagHelp := false, flagMonochrome := false }

/-- The arguments `-cs` and `data.json`. -/
def argsCompactSort : List (List Nat) :=
  [[45, 99, 115], [100, 97, 116, 97, 46, 106, 115, 111, 110]]

/-! ### Specification-side notions for the markers in the output of `colorize` -/

/-- The marker a text starts with, if it starts with one: whether it is a
colour marker (`true`) or the reset marker (`false`), and its length. -/
def markerKindAt (t : List Nat) : Option (Bool × Nat) :=
  (markers.find? (fun m => m.isPrefixOf t)).map (fun m => (m != colorReset, m.length))

/-- The markers of a text read from left to right, `true` for a colour marker
and `false` for a reset; the first argument counts the bytes of the current
marker still to pass over. -/
def markerTrace : Nat → List Nat → List Bool
  | _, [] => []
  | k + 1, _ :: t => markerTrace k t
  | 0, c :: t =>
    match markerKindAt (c :: t) with
    | some (kind, n) => kind :: markerTrace (n - 1) t
    | none => markerTrace 0 t

/-- Reading a sequence of markers with the knowledge whether a colour is
pending: a colour marker may come only when none is pending, a reset only
when one is.  The value is whether a colour is pending at the end, and there
is none when the sequence breaks the rule. -/
def nesting : Bool → List Bool → Option Bool
  | pending, [] => some pending
  | pending, isColour :: rest => if isColour = pending then none else nesting isColour rest

/-- Whether a text holds an odd number of double quotes. -/
def oddQuotes (l : List Nat) : Bool := l.count 34 % 2 == 1

/-! # Theorems -/

/-! ### Basic facts about one iteration -/

theorem byteToString_ascii {c : Nat} (h : c < 128) : byteToString c = [c] := by
  simp [byteToString, h]

theorem isNumberChar_lt {c : Nat} (h : isNumberChar c = true) : c < 128 := by
  simp only [isNumberChar, Bool.or_eq_true, Bool.and_eq_true, decide_eq_true_eq] at h
  omega

theorem isNumberStart_isNumberChar {c : Nat} (h : isNumberStart c = true) :
    isNumberChar c = true := by
  simp only [isNumberStart, Bool.or_eq_true, Bool.and_eq_true, decide_eq_true_eq] at h
  simp only [isNumberChar, Bool.or_eq_true, Bool.and_eq_true, decide_eq_true_eq]
  omega

theorem flatMap_byteToString_ascii (l : List Nat) (h : ∀ c ∈ l, c < 128) :
    l.flatMap byteToString = l := by
  induction l with
  | nil => rfl
  | cons a t ih =>
    have ha : a < 128 := h a (List.mem_cons_self _ _)
    have ht : ∀ c ∈ t, c < 128 := fun c hc => h c (List.mem_cons_of_mem _ hc)
    simp [List.flatMap_cons, byteToString_ascii ha, ih ht]

theorem numberRun_ascii (rest : List Nat) : ∀ c ∈ numberRun rest, c < 128 := by
  intro c hc
  exact isNumberChar_lt (List.mem_takeWhile_imp hc)

theorem numberRun_flatMap (rest : List Nat) :
    (numberRun rest).flatMap byteToString = numberRun rest :=
  flatMap_byteToString_ascii _ (numberRun_ascii rest)

theorem drop_eq_cons_of_getElem? {s : List Nat} {i c : Nat} (h : s[i]? = some c) :
    s.drop i = c :: s.drop (i + 1) := by
  obtain ⟨hi, hc⟩ := List.getElem?_eq_some.mp h
  rw [← hc]
  exact List.drop_eq_getElem_cons hi

theorem numberRun_length_pos {s : List Nat} {i c : Nat} (h : s[i]? = some c)
    (hc : isNumberStart c = true) : 0 < (numberRun (s.drop i)).length := by
  rw [drop_eq_cons_of_getElem? h]
  simp [numberRun, List.takeWhile_cons, isNumberStart_isNumberChar hc]

theorem numberRun_length_le (s : List Nat) (i : Nat) :
    i + (numberRun (s.drop i)).length ≤ max i s.length := by
  have h1 : (numberRun (s.drop i)).length ≤ (s.drop i).length :=
    (List.takeWhile_sublist _).length_le
  rw [List.length_drop] at h1
  omega

theorem isPrefixOf_length_le {p l : List Nat} (h : p.isPrefixOf l = true) :
    p.length ≤ l.length :=
  (List.isPrefixOf_iff_prefix.mp h).length_le

/-- An iteration entered with the cursor inside the string does not panic,
moves the cursor forward and leaves it within the string. -/
theorem colorizeStep_progress (s : List Nat) (st : ScanState) (h : st.i < s.length) :
    ∃ st2, colorizeStep s st = some st2 ∧ st.i < st2.i ∧ st2.i ≤ s.length := by
  have hc : s[st.i]? = some s[st.i] := List.getElem?_eq_getElem h
  have hlen : (s.drop st.i).length = s.length - st.i := List.length_drop _ _
  unfold colorizeStep
  rw [hc]
  simp only
  split_ifs with h1 h2 h3 h4 h5 h6 h7 h8 h9
  · exact ⟨_, rfl, Nat.lt_succ_self _, h⟩
  · exact ⟨_, rfl, Nat.lt_succ_self _, h⟩
  · exact ⟨_, rfl, Nat.lt_succ_self _, h⟩
  · exact ⟨_, rfl, Nat.lt_succ_self _, h⟩
  · exact ⟨_, rfl, Nat.lt_succ_self _, h⟩
  · refine ⟨_, rfl, ?_, ?_⟩
    · have := numberRun_length_pos hc h6
      simp only
      omega
    · have := numberRun_length_le s st.i
      simp only
      omega
  · refine ⟨_, rfl, by simp, ?_⟩
    have := isPrefixOf_length_le h7
    simp only [litTrue, List.length_cons, List.length_nil] at this
    simp only
    omega
  · refine ⟨_, rfl, by simp, ?_⟩
    have := isPrefixOf_length_le h8
    simp only [litFalse, List.length_cons, List.length_nil] at this
    simp only
    omega
  · refine ⟨_, rfl, by simp, ?_⟩
    have := isPrefixOf_length_le h9
    simp only [litNull, List.length_cons, List.length_nil] at this
    simp only
    omega
  · exact ⟨_, rfl, Nat.lt_succ_self _, h⟩

/-- The loop, allowed as many iterations as there are bytes left, ends with
some state, and the cursor is then at the end of the string. -/
theorem colorizeLoop_total (s : List Nat) :
    ∀ (fuel : Nat) (st : ScanState), st.i ≤ s.length → s.length - st.i ≤ fuel →
      ∃ st2, colorizeLoop s fuel st = some st2 ∧ st2.i = s.length := by
  intro fuel
  induction fuel with
  | zero =>
    intro st h1 h2
    refine ⟨st, ?_, by omega⟩
    have : ¬ st.i < s.length := by omega
    simp [colorizeLoop, this]
  | succ n ih =>
    intro st h1 h2
    by_cases hlt : st.i < s.length
    · obtain ⟨st2, hs, hlo, hhi⟩ := colorizeStep_progress s st hlt
      obtain ⟨st3, hl, he⟩ := ih st2 hhi (by omega)
      exact ⟨st3, by simp [colorizeLoop, hlt, hs, hl], he⟩
    · exact ⟨st, by simp [colorizeLoop, hlt], by omega⟩

/-- A result of the loop does not depend on the iteration bound that was
allowed: a larger bound gives the same state. -/
theorem colorizeLoop_fuel_mono (s : List Nat) :
    ∀ (fuel k : Nat) (st st2 : ScanState), colorizeLoop s fuel st = some st2 →
      colorizeLoop s (fuel + k) st = some st2 := by
  intro fuel
  induction fuel with
  | zero =>
    intro k st st2 h
    by_cases hlt : st.i < s.length
    · simp [colorizeLoop, hlt] at h
    · simp only [colorizeLoop, hlt, if_false] at h
      cases k <;> simp [colorizeLoop, hlt, h]
  | succ n ih =>
    intro k st st2 h
    rw [show n + 1 + k = (n + k) + 1 by omega]
    by_cases hlt : st.i < s.length
    · simp only [colorizeLoop, hlt, if_true] at h ⊢
      cases hs : colorizeStep s st with
      | none => simp [hs] at h
      | some st1 =>
        simp only [hs, Option.some_bind] at h ⊢
        exact ih k st1 st2 h
    · simp only [colorizeLoop, hlt, if_false] at h ⊢
      exact h


/-! ### One iteration, case by case -/

theorem colorizeStep_open_quote (s : List Nat) (st : ScanState)
    (hout : st.inString = false) (hc : s[st.i]? = some 34) :
    colorizeStep s st = some {
      i := st.i + 1
      inString := true
      isKey := lookaheadIsKey (s.drop (st.i + 1))
      result := st.result
        ++ (if lookaheadIsKey (s.drop (st.i + 1)) then colorKey else colorString) ++ [34] } := by
  unfold colorizeStep
  rw [hc]
  simp [hout, byteToString]

theorem colorizeStep_close_quote (s : List Nat) (st : ScanState)
    (hin : st.inString = true) (hc : s[st.i]? = some 34) :
    colorizeStep s st = some { st with
      result := st.result ++ [34] ++ colorReset
      inString := false
      i := st.i + 1 } := by
  unfold colorizeStep
  rw [hc]
  simp [hin, byteToString]

theorem colorizeStep_in_string (s : List Nat) (st : ScanState) (c : Nat)
    (hin : st.inString = true) (hc : s[st.i]? = some c) (hq : c ≠ 34) :
    colorizeStep s st = some { st with
      result := st.result ++ byteToString c
      i := st.i + 1 } := by
  unfold colorizeStep
  rw [hc]
  simp [hin, hq]

theorem colorizeStep_number (s : List Nat) (st : ScanState) (c : Nat)
    (hout : st.inString = false) (hc : s[st.i]? = some c) (hn : isNumberStart c = true) :
    colorizeStep s st = some { st with
      result := st.result ++ colorNumber ++ numberRun (s.drop st.i) ++ colorReset
      i := st.i + (numberRun (s.drop st.i)).length } := by
  have h34 : c ≠ 34 := by
    intro h; subst h; simp [isNumberStart] at hn
  have hb : ¬ (c = 123 ∨ c = 125 ∨ c = 91 ∨ c = 93) := by
    intro h
    simp only [isNumberStart, Bool.or_eq_true, Bool.and_eq_true, decide_eq_true_eq] at hn
    omega
  unfold colorizeStep
  rw [hc]
  simp [hout, h34, hb, hn, numberRun_flatMap]

/-! ### The lookahead loops against their description -/

theorem colonFollows_eq (after : List Nat) : colonFollows after = colonIsNext after := by
  induction after with
  | nil => simp [colonFollows, colonIsNext]
  | cons c rest ih =>
    unfold colonFollows
    by_cases h58 : c = 58
    · subst h58
      simp [colonIsNext, isBlank, List.dropWhile_cons]
    · by_cases hb : isBlank c = true
      · have hb2 : ¬ (c ≠ 32 ∧ c ≠ 9 ∧ c ≠ 10) := by
          simp only [isBlank, Bool.or_eq_true, decide_eq_true_eq] at hb
          omega
        simp only [h58, if_false, hb2, ih]
        simp [colonIsNext, List.dropWhile_cons, hb]
      · have hb2 : c ≠ 32 ∧ c ≠ 9 ∧ c ≠ 10 := by
          simp only [isBlank, Bool.or_eq_true, decide_eq_true_eq] at hb
          omega
        have e : (if c ≠ 32 ∧ c ≠ 9 ∧ c ≠ 10 then false else colonFollows rest) = false :=
          if_pos hb2
        rw [if_neg h58, e]
        simp [colonIsNext, List.dropWhile_cons, hb, h58]

theorem lookaheadIsKey_append (body after : List Nat) (hq : 34 ∉ body) :
    lookaheadIsKey (body ++ 34 :: after) = colonIsNext after := by
  induction body with
  | nil => simp [lookaheadIsKey, colonFollows_eq]
  | cons c rest ih =>
    have hc : c ≠ 34 := fun h => hq (h ▸ List.mem_cons_self _ _)
    have hr : 34 ∉ rest := fun h => hq (List.mem_cons_of_mem _ h)
    simp [lookaheadIsKey, hc, ih hr]

theorem lookaheadIsKey_no_quote (rest : List Nat) (hq : 34 ∉ rest) :
    lookaheadIsKey rest = false := by
  induction rest with
  | nil => rfl
  | cons c rest ih =>
    have hc : c ≠ 34 := fun h => hq (h ▸ List.mem_cons_self _ _)
    have hr : 34 ∉ rest := fun h => hq (List.mem_cons_of_mem _ h)
    simp [lookaheadIsKey, hc, ih hr]

theorem afterClosingQuote_append (body after : List Nat) (hq : 34 ∉ body) (hb : 92 ∉ body) :
    afterClosingQuote (body ++ 34 :: after) = some after := by
  induction body with
  | nil => cases after <;> simp [afterClosingQuote]
  | cons c rest ih =>
    have hc : c ≠ 34 := fun h => hq (h ▸ List.mem_cons_self _ _)
    have hc2 : c ≠ 92 := fun h => hb (h ▸ List.mem_cons_self _ _)
    have hr : 34 ∉ rest := fun h => hq (List.mem_cons_of_mem _ h)
    have hr2 : 92 ∉ rest := fun h => hb (List.mem_cons_of_mem _ h)
    have ih2 := ih hr hr2
    cases rest with
    | nil => simpa [afterClosingQuote, hc, hc2] using ih2
    | cons d rest2 => simpa [afterClosingQuote, hc, hc2] using ih2

/-! ### Claims about `colorize` -/

/-- C1, at the failing input: the JSON text `"é"` contains no ESC byte, yet
`colorize` rewrites its two non-ASCII bytes `C3 A9` into the four bytes
`C3 83 C2 A9`, so deleting the markers from the output does not give the
input back. -/
theorem colorize_docEAcute_not_lossless :
    27 ∉ docEAcute ∧
    colorize docEAcute = some (colorString ++ [34, 195, 131, 194, 169, 34] ++ colorReset) ∧
    (colorize docEAcute).map stripMarkers = some [34, 195, 131, 194, 169, 34] ∧
    (colorize docEAcute).map stripMarkers ≠ some docEAcute := by
  decide

/-- C5: `colorize` returns a result on every input; every iteration entered
with the cursor inside the string succeeds (no index out of range), moves the
cursor forward by at least one position and not past the end; and allowing
more iterations than `len(s)` does not change the result. -/
theorem colorize_total (s : List Nat) :
    (∃ r, colorize s = some r) ∧
    (∀ st : ScanState, st.i < s.length →
      ∃ st2, colorizeStep s st = some st2 ∧ st.i < st2.i ∧ st2.i ≤ s.length) ∧
    (∀ k, (colorizeLoop s (s.length + k) initState).map (fun st => st.result) = colorize s) := by
  obtain ⟨st2, h2, _⟩ := colorizeLoop_total s s.length initState (Nat.zero_le _) (by simp [initState])
  refine ⟨⟨st2.result, by simp [colorize, h2]⟩, colorizeStep_progress s, ?_⟩
  intro k
  simp [colorize, h2, colorizeLoop_fuel_mono s s.length k initState st2 h2]

/-- The totality statement at the text `{"a\"b":1}` and its first iteration. -/
theorem colorize_total_witness :
    (∃ r, colorize docEscapedKey = some r) ∧
    (∃ st2, colorizeStep docEscapedKey initState = some st2 ∧
      initState.i < st2.i ∧ st2.i ≤ docEscapedKey.length) :=
  ⟨(colorize_total docEscapedKey).1, (colorize_total docEscapedKey).2.1 initState (by decide)⟩

/-- C4: outside a string at a byte in `0-9`, `'-'` or `'.'`, one iteration
emits the number colour, the maximal run of bytes from the set
`0-9 . - e E +` that starts at the cursor, and one reset, and leaves the
cursor right after the run; and `-3.14e+10` is coloured as one token. -/
theorem colorize_number_run :
    (∀ (s : List Nat) (st : ScanState) (c : Nat), st.inString = false → s[st.i]? = some c →
      ((48 ≤ c ∧ c ≤ 57) ∨ c = 45 ∨ c = 46) →
      ∃ run tail, s.drop st.i = run ++ tail ∧ run.head? = some c ∧
        (∀ x ∈ run, (48 ≤ x ∧ x ≤ 57) ∨ x = 46 ∨ x = 45 ∨ x = 101 ∨ x = 69 ∨ x = 43) ∧
        (∀ x, tail.head? = some x →
          ¬ ((48 ≤ x ∧ x ≤ 57) ∨ x = 46 ∨ x = 45 ∨ x = 101 ∨ x = 69 ∨ x = 43)) ∧
        colorizeStep s st = some { st with
          result := st.result ++ colorNumber ++ run ++ colorReset
          i := st.i + run.length }) ∧
    colorize docNumber = some (colorNumber ++ docNumber ++ colorReset) := by
  refine ⟨?_, by decide⟩
  intro s st c hout hc hstart
  have hn : isNumberStart c = true := by
    simp only [isNumberStart, Bool.or_eq_true, Bool.and_eq_true, decide_eq_true_eq]
    omega
  refine ⟨numberRun (s.drop st.i), (s.drop st.i).dropWhile isNumberChar,
    (List.takeWhile_append_dropWhile _ _).symm, ?_, ?_, ?_, colorizeStep_number s st c hout hc hn⟩
  · rw [drop_eq_cons_of_getElem? hc]
    simp [numberRun, List.takeWhile_cons, isNumberStart_isNumberChar hn]
  · intro x hx
    have := List.mem_takeWhile_imp hx
    simp only [isNumberChar, Bool.or_eq_true, Bool.and_eq_true, decide_eq_true_eq] at this
    omega
  · intro x hx hx2
    have h1 : isNumberChar x = true := by
      simp only [isNumberChar, Bool.or_eq_true, Bool.and_eq_true, decide_eq_true_eq]
      omega
    have h2 := List.head?_dropWhile_not isNumberChar (s.drop st.i)
    rw [hx] at h2
    simp [h1] at h2

/-- The number run of `-3.14e+10`, entered at its first byte. -/
theorem colorize_number_run_witness :
    ∃ run tail, docNumber.drop initState.i = run ++ tail ∧ run.head? = some 45 ∧
        (∀ x ∈ run, (48 ≤ x ∧ x ≤ 57) ∨ x = 46 ∨ x = 45 ∨ x = 101 ∨ x = 69 ∨ x = 43) ∧
        (∀ x, tail.head? = some x →
          ¬ ((48 ≤ x ∧ x ≤ 57) ∨ x = 46 ∨ x = 45 ∨ x = 101 ∨ x = 69 ∨ x = 43)) ∧
        colorizeStep docNumber initState = some { initState with
          result := initState.result ++ colorNumber ++ run ++ colorReset
          i := initState.i + run.length } :=
  colorize_number_run.1 docNumber initState 45 rfl (by decide) (by decide)

/-- C2, at the failing input: in the text `{"a\"b":1}` the key literal opens at
byte 1 and the first non-whitespace byte after its matching closing quote is
`':'`; the scanner reaches that quote outside a string, yet emits the string
colour before it (the lookahead stops at the escaped quote). -/
theorem colorize_escaped_key_counterexample :
    keyBySpec (docEscapedKey.drop 2) = true ∧
    colorizeIter docEscapedKey 1 initState
      = some ⟨1, false, false, colorBrace ++ [123] ++ colorReset⟩ ∧
    colorizeIter docEscapedKey 2 initState
      = some ⟨2, true, false, colorBrace ++ [123] ++ colorReset ++ colorString ++ [34]⟩ ∧
    colorize docEscapedKey
      = some (colorBrace ++ [123] ++ colorReset ++ colorString ++ [34, 97, 92, 34] ++ colorReset
          ++ [98] ++ colorString ++ [34, 58, 49, 125]) := by
  decide

/-- What the lookahead does: outside a string at a double quote, one
iteration emits the key colour before the quote exactly when the first byte
other than space, tab and newline after the next double quote is `':'`, and
the string colour otherwise (also when there is no later double quote); the
next double quote is the matching closing quote of the literal only when the
literal has no backslash; and the line `"name": "Bob"` is coloured as a key
and a string value. -/
theorem colorize_key_classification :
    (∀ (s : List Nat) (st : ScanState) (body after : List Nat), st.inString = false →
      s[st.i]? = some 34 → s.drop (st.i + 1) = body ++ 34 :: after → 34 ∉ body →
      colorizeStep s st = some {
          i := st.i + 1
          inString := true
          isKey := colonIsNext after
          result := st.result ++ (if colonIsNext after then colorKey else colorString) ++ [34] } ∧
        (92 ∉ body → keyBySpec (s.drop (st.i + 1)) = colonIsNext after)) ∧
    (∀ (s : List Nat) (st : ScanState), st.inString = false → s[st.i]? = some 34 →
      34 ∉ s.drop (st.i + 1) →
      colorizeStep s st = some {
          i := st.i + 1
          inString := true
          isKey := false
          result := st.result ++ colorString ++ [34] }) ∧
    colorize docNameBob = some (colorKey ++ [34, 110, 97, 109, 101, 34] ++ colorReset ++ [58, 32]
      ++ colorString ++ [34, 66, 111, 98, 34] ++ colorReset) := by
  refine ⟨?_, ?_, by decide⟩
  · intro s st body after hout hc hd hq
    constructor
    · rw [colorizeStep_open_quote s st hout hc, hd, lookaheadIsKey_append body after hq]
    · intro hb
      rw [hd]
      simp [keyBySpec, afterClosingQuote_append body after hq hb]
  · intro s st hout hc hq
    rw [colorizeStep_open_quote s st hout hc, lookaheadIsKey_no_quote _ hq]
    simp

/-- The classification of `"name"` in the line `"name": "Bob"`. -/
theorem colorize_key_classification_witness :
    colorizeStep docNameBob initState = some {
          i := initState.i + 1
          inString := true
          isKey := colonIsNext [58, 32, 34, 66, 111, 98, 34]
          result := initState.result
            ++ (if colonIsNext [58, 32, 34, 66, 111, 98, 34] then colorKey else colorString)
            ++ [34] } ∧
      (92 ∉ [110, 97, 109, 101] →
        keyBySpec (docNameBob.drop (initState.i + 1)) = colonIsNext [58, 32, 34, 66, 111, 98, 34]) :=
  colorize_key_classification.1 docNameBob initState [110, 97, 109, 101]
    [58, 32, 34, 66, 111, 98, 34] rfl (by decide) (by decide) (by decide)

/-! ### Several iterations -/

theorem colorizeIter_add (s : List Nat) (m n : Nat) (st : ScanState) :
    colorizeIter s (m + n) st = (colorizeIter s m st).bind (colorizeIter s n) := by
  induction m generalizing st with
  | zero => simp [colorizeIter]
  | succ m ih =>
    rw [show m + 1 + n = (m + n) + 1 by omega]
    simp only [colorizeIter]
    cases colorizeStep s st with
    | none => rfl
    | some st1 => simpa using ih st1

theorem getElem?_of_drop {s : List Nat} {i c : Nat} {r : List Nat} (h : s.drop i = c :: r) :
    s[i]? = some c ∧ s.drop (i + 1) = r := by
  constructor
  · have h0 : (s.drop i)[0]? = s[i + 0]? := List.getElem?_drop s i 0
    rw [h] at h0
    simpa using h0.symm
  · have := List.tail_drop (l := s) (n := i)
    rw [h] at this
    simpa using this.symm

/-- Inside a string, the bytes up to the next double quote are copied one per
iteration through `string(c)`. -/
theorem colorizeIter_in_string (s : List Nat) (body : List Nat) :
    ∀ (st : ScanState) (rest : List Nat), st.inString = true → s.drop st.i = body ++ rest →
      34 ∉ body →
      colorizeIter s body.length st = some { st with
        result := st.result ++ body.flatMap byteToString
        i := st.i + body.length } := by
  induction body with
  | nil => intro st rest _ _ _; simp [colorizeIter]
  | cons c body ih =>
    intro st rest hin hd hq
    have hc : c ≠ 34 := fun h => hq (h ▸ List.mem_cons_self _ _)
    have hr : 34 ∉ body := fun h => hq (List.mem_cons_of_mem _ h)
    obtain ⟨h1, h2⟩ := getElem?_of_drop (show s.drop st.i = c :: (body ++ rest) from hd)
    simp only [List.length_cons, colorizeIter, colorizeStep_in_string s st c hin h1 hc,
      Option.some_bind]
    rw [ih ⟨st.i + 1, st.inString, st.isKey, st.result ++ byteToString c⟩ rest hin h2 hr]
    simp [Nat.add_assoc, Nat.add_comm 1]

/-- An iteration changes the in-string flag exactly when the byte at the
cursor is a double quote. -/
theorem colorizeStep_toggle (s : List Nat) (st st2 : ScanState)
    (h : colorizeStep s st = some st2) :
    st2.inString ≠ st.inString ↔ s[st.i]? = some 34 := by
  unfold colorizeStep at h
  cases hc : s[st.i]? with
  | none => simp [hc] at h
  | some c =>
    rw [hc] at h
    simp only at h
    split_ifs at h with h1 h2 h3 h4 h5 h6 h7 h8 h9 <;>
      simp only [Option.some.injEq] at h <;> subst h <;> simp_all

/-- C3, at the failing input: the text `"\"1"` is one string literal (its matching
closing quote is the last byte), yet `colorize` leaves the string state at
the escaped quote and inserts a reset, the number colour around `1` and a
string colour inside the literal. -/
theorem colorize_escaped_quote_counterexample :
    afterClosingQuote (docEscapedValue.drop 1) = some [] ∧
    (colorizeIter docEscapedValue 3 initState).map (fun st => st.inString) = some false ∧
    colorize docEscapedValue
      = some (colorString ++ [34, 92, 34] ++ colorReset ++ colorNumber ++ [49] ++ colorReset
          ++ colorString ++ [34]) ∧
    colorize docEscapedValue ≠ some (colorString ++ docEscapedValue ++ colorReset) := by
  decide

/-- What the string state does: the in-string flag changes at every double
quote, escaped or not, and at no other byte; and from a double quote met
outside a string, the bytes up to the next double quote are written one by
one through `string(c)`, so that the output of these iterations is one colour
marker, the quote, those bytes, the next quote and one reset, with no marker
in between. -/
theorem colorize_string_opaque :
    (∀ (s : List Nat) (st st2 : ScanState), colorizeStep s st = some st2 →
      (st2.inString ≠ st.inString ↔ s[st.i]? = some 34)) ∧
    (∀ (s : List Nat) (st : ScanState) (body after : List Nat), st.inString = false →
      s.drop st.i = 34 :: (body ++ 34 :: after) → 34 ∉ body →
      colorizeIter s (body.length + 2) st = some {
        i := st.i + body.length + 2
        inString := false
        isKey := colonIsNext after
        result := st.result ++ (if colonIsNext after then colorKey else colorString)
          ++ [34] ++ body.flatMap byteToString ++ [34] ++ colorReset }) := by
  refine ⟨colorizeStep_toggle, ?_⟩
  intro s st body after hout hd hq
  obtain ⟨h1, h2⟩ := getElem?_of_drop hd
  have h3 : s.drop (st.i + 1 + body.length) = 34 :: after := by
    rw [← List.drop_drop, h2, List.drop_left]
  obtain ⟨h4, _⟩ := getElem?_of_drop h3
  have e1 : colorizeIter s 1 st = some ⟨st.i + 1, true, colonIsNext after,
      st.result ++ (if colonIsNext after then colorKey else colorString) ++ [34]⟩ := by
    simp [colorizeIter, colorizeStep_open_quote s st hout h1, h2,
      lookaheadIsKey_append body after hq]
  have e2 := colorizeIter_in_string s body ⟨st.i + 1, true, colonIsNext after,
      st.result ++ (if colonIsNext after then colorKey else colorString) ++ [34]⟩
      (34 :: after) rfl h2 hq
  have e3 : colorizeIter s 1 ⟨st.i + 1 + body.length, true, colonIsNext after,
      st.result ++ (if colonIsNext after then colorKey else colorString) ++ [34]
        ++ body.flatMap byteToString⟩
      = some ⟨st.i + 1 + body.length + 1, false, colonIsNext after,
        st.result ++ (if colonIsNext after then colorKey else colorString) ++ [34]
        ++ body.flatMap byteToString ++ [34] ++ colorReset⟩ := by
    have := colorizeStep_close_quote s ⟨st.i + 1 + body.length, true, colonIsNext after,
      st.result ++ (if colonIsNext after then colorKey else colorString) ++ [34]
        ++ body.flatMap byteToString⟩ rfl h4
    simp only [colorizeIter, this, Option.some_bind]
  simp only at e2
  rw [show body.length + 2 = 1 + (body.length + 1) by omega, colorizeIter_add, e1,
    Option.some_bind, colorizeIter_add, e2, Option.some_bind, e3]
  simp [Nat.add_assoc, Nat.add_comm, Nat.add_left_comm]

/-- The literal `"name"` of the line `"name": "Bob"`, copied in six iterations. -/
theorem colorize_string_opaque_witness :
    colorizeIter docNameBob (([110, 97, 109, 101] : List Nat).length + 2) initState = some {
        i := initState.i + ([110, 97, 109, 101] : List Nat).length + 2
        inString := false
        isKey := colonIsNext [58, 32, 34, 66, 111, 98, 34]
        result := initState.result
          ++ (if colonIsNext [58, 32, 34, 66, 111, 98, 34] then colorKey else colorString)
          ++ [34] ++ ([110, 97, 109, 101] : List Nat).flatMap byteToString ++ [34]
          ++ colorReset } :=
  colorize_string_opaque.2 docNameBob initState [110, 97, 109, 101]
    [58, 32, 34, 66, 111, 98, 34] rfl (by decide) (by decide)

/-! ### `findPosition` -/

theorem bytesAfterLastNewline_cons (c : Nat) (l : List Nat) :
    bytesAfterLastNewline (c :: l)
      = if 10 ∈ l then bytesAfterLastNewline l else if c = 10 then l.length else l.length + 1 := by
  unfold bytesAfterLastNewline
  rw [List.reverse_cons, List.takeWhile_append]
  by_cases h : 10 ∈ l
  · have hne : (List.takeWhile (fun c => decide (c ≠ 10)) l.reverse).length ≠ l.reverse.length := by
      intro he
      have h1 : List.takeWhile (fun c => decide (c ≠ 10)) l.reverse = l.reverse :=
        (List.takeWhile_prefix _).sublist.eq_of_length he
      have h2 := List.takeWhile_eq_self_iff.mp h1 10 (List.mem_reverse.mpr h)
      simp at h2
    rw [if_neg hne, if_pos h]
  · have hall : ∀ x ∈ l.reverse, (fun c => decide (c ≠ 10)) x = true := by
      intro x hx
      have : x ≠ 10 := fun e => h (e ▸ List.mem_reverse.mp hx)
      simpa using this
    have h1 : List.takeWhile (fun c => decide (c ≠ 10)) l.reverse = l.reverse :=
      List.takeWhile_eq_self_iff.mpr hall
    rw [h1]
    by_cases hc : c = 10
    · simp [h, hc]
    · simp [h, hc]

theorem bytesAfterLastNewline_no_newline (l : List Nat) (h : 10 ∉ l) :
    bytesAfterLastNewline l = l.length := by
  induction l with
  | nil => rfl
  | cons c l ih =>
    have hc : c ≠ 10 := fun e => h (e ▸ List.mem_cons_self _ _)
    have hl : 10 ∉ l := fun e => h (List.mem_cons_of_mem _ e)
    rw [bytesAfterLastNewline_cons]
    simp [hl, hc]

/-- The loop of `findPosition` in closed form: with `pre` the bytes it walks
over, the line grows by the newlines of `pre`, and the column is one more
than the bytes of `pre` after its last newline, or has grown by the length of
`pre` when it has none. -/
theorem findPositionFrom_eq (offset : Int) :
    ∀ (rest : List Nat) (i : Nat) (line col : Int),
      findPositionFrom offset rest i line col
        = (line + (newlineCount (rest.take (offset - i).toNat) : Int),
           if 10 ∈ rest.take (offset - i).toNat
           then 1 + (bytesAfterLastNewline (rest.take (offset - i).toNat) : Int)
           else col + ((rest.take (offset - i).toNat).length : Int)) := by
  intro rest
  induction rest with
  | nil => intro i line col; simp [findPositionFrom, newlineCount]
  | cons c cs ih =>
    intro i line col
    by_cases hlt : (i : Int) < offset
    · have hn : (offset - (i : Int)).toNat = (offset - ((i + 1 : Nat) : Int)).toNat + 1 := by
        omega
      rw [hn, List.take_succ_cons]
      by_cases hc : c = 10
      · subst hc
        simp only [findPositionFrom, hlt, if_true, ih]
        simp only [newlineCount, List.count_cons_self, List.mem_cons, true_or, if_true,
          bytesAfterLastNewline_cons, List.length_cons]
        split_ifs <;> simp <;> omega
      · have hc2 : (10 : Nat) ≠ c := fun e => hc e.symm
        simp only [findPositionFrom, hlt, if_true, hc, if_false, ih]
        simp only [newlineCount, List.count_cons_of_ne hc2, List.mem_cons, hc2, false_or,
          bytesAfterLastNewline_cons, List.length_cons]
        split_ifs
        · simp
        · simp
          omega
    · have hn : (offset - (i : Int)).toNat = 0 := by omega
      simp [findPositionFrom, hlt, hn, newlineCount]

theorem take_clampOffset (input : List Nat) (offset : Int) :
    input.take (clampOffset input offset) = input.take offset.toNat := by
  unfold clampOffset
  rw [List.take_eq_take]
  have : (max offset 0).toNat = offset.toNat := by omega
  rw [this]
  omega

theorem findPosition_eq (input : List Nat) (offset : Int) :
    findPosition input offset
      = (1 + (newlineCount (input.take (clampOffset input offset)) : Int),
         1 + (bytesAfterLastNewline (input.take (clampOffset input offset)) : Int)) := by
  unfold findPosition
  rw [findPositionFrom_eq, take_clampOffset]
  simp only [Nat.cast_zero, sub_zero]
  by_cases h : 10 ∈ input.take offset.toNat
  · simp [h]
  · simp [h, bytesAfterLastNewline_no_newline _ h]

theorem clampOffset_of_le (input : List Nat) (offset : Int) (h : (input.length : Int) ≤ offset) :
    clampOffset input offset = input.length := by
  unfold clampOffset
  omega

/-- The line and the column of `findPosition` are at least 1. -/
theorem findPosition_pos (input : List Nat) (offset : Int) :
    1 ≤ (findPosition input offset).1 ∧ 1 ≤ (findPosition input offset).2 := by
  rw [findPosition_eq]
  simp only
  omega

/-- C6: `findPosition` returns line `1 +` the number of newlines of
`input[0:p]` and column `1 +` the number of bytes of `input[0:p]` after its
last newline (`1 + p` when it has none), for `p = min(max(offset, 0),
len(input))`; so line and column are at least 1, and every offset from
`len(input)` on gives the pair of `offset = len(input)`. -/
theorem findPosition_eq_reference (input : List Nat) (offset : Int) :
    findPosition input offset
      = (1 + (newlineCount (input.take (clampOffset input offset)) : Int),
         1 + (bytesAfterLastNewline (input.take (clampOffset input offset)) : Int)) ∧
    (10 ∉ input.take (clampOffset input offset) →
      (findPosition input offset).2 = 1 + (clampOffset input offset : Int)) ∧
    1 ≤ (findPosition input offset).1 ∧ 1 ≤ (findPosition input offset).2 ∧
    ((input.length : Int) ≤ offset →
      findPosition input offset = findPosition input (input.length : Int)) := by
  refine ⟨findPosition_eq input offset, ?_, ?_, ?_, ?_⟩
  · intro h
    rw [findPosition_eq, bytesAfterLastNewline_no_newline _ h]
    simp only [List.length_take]
    have : clampOffset input offset ≤ input.length := by unfold clampOffset; omega
    omega
  · exact (findPosition_pos input offset).1
  · exact (findPosition_pos input offset).2
  · intro h
    rw [findPosition_eq, findPosition_eq, clampOffset_of_le input offset h,
      clampOffset_of_le input _ (le_refl _)]

/-- The position in a two-line text at offset 1 and beyond its end. -/
theorem findPosition_eq_reference_witness :
    (findPosition docTwoLines 1).2 = 1 + (clampOffset docTwoLines 1 : Int) ∧
    findPosition docTwoLines 7 = findPosition docTwoLines (docTwoLines.length : Int) :=
  ⟨(findPosition_eq_reference docTwoLines 1).2.1 (by decide),
   (findPosition_eq_reference docTwoLines 7).2.2.2.2 (by decide)⟩

/-! ### `printErrorContext` -/

theorem splitLines_cons_newline (cs : List Nat) : splitLines (10 :: cs) = [] :: splitLines cs := by
  simp [splitLines]

theorem splitLines_ne_nil (l : List Nat) : ∃ h t, splitLines l = h :: t := by
  induction l with
  | nil => exact ⟨[], [], rfl⟩
  | cons c cs ih =>
    obtain ⟨h, t, e⟩ := ih
    by_cases hc : c = 10
    · exact ⟨[], splitLines cs, by simp [splitLines, hc]⟩
    · exact ⟨c :: h, t, by simp [splitLines, hc, e]⟩

theorem splitLines_cons_other (c : Nat) (cs : List Nat) (hc : c ≠ 10) :
    ∃ h t, splitLines cs = h :: t ∧ splitLines (c :: cs) = (c :: h) :: t := by
  obtain ⟨h, t, e⟩ := splitLines_ne_nil cs
  exact ⟨h, t, e, by simp [splitLines, hc, e]⟩

theorem splitLines_length (l : List Nat) : (splitLines l).length = newlineCount l + 1 := by
  induction l with
  | nil => rfl
  | cons c cs ih =>
    by_cases hc : c = 10
    · subst hc
      simp [splitLines_cons_newline, ih, newlineCount]
    · obtain ⟨h, t, e, e2⟩ := splitLines_cons_other c cs hc
      have hc2 : (10 : Nat) ≠ c := fun e => hc e.symm
      rw [e] at ih
      rw [e2]
      simp only [List.length_cons] at ih ⊢
      simp only [newlineCount, List.count_cons_of_ne hc2] at ih ⊢
      exact ih

/-- The loop of `findPosition` stopped at a byte `b` other than a newline,
`n` bytes ahead: it has passed `k` newlines and then `j` bytes, and `b` is
byte `j` of piece `k` of the text split on newlines. -/
theorem findPositionFrom_line (offset : Int) (b : Nat) (hb : b ≠ 10) :
    ∀ (rest : List Nat) (n i : Nat) (line col : Int), offset = (i : Int) + (n : Int) →
      rest[n]? = some b →
      ∃ (k j : Nat) (l : List Nat),
        findPositionFrom offset rest i line col
          = (line + (k : Int), (if k = 0 then col else 1) + (j : Int)) ∧
        (splitLines rest)[k]? = some l ∧ l[j]? = some b := by
  intro rest
  induction rest with
  | nil => intro n i line col _ h; simp at h
  | cons c cs ih =>
    intro n i line col ho h
    cases n with
    | zero =>
      have hcb : c = b := by simpa using h
      subst hcb
      obtain ⟨hd, tl, _, e2⟩ := splitLines_cons_other c cs hb
      have hlt : ¬ (i : Int) < offset := by omega
      exact ⟨0, 0, c :: hd, by simp [findPositionFrom, hlt], by simp [e2], by simp⟩
    | succ m =>
      have hlt : (i : Int) < offset := by omega
      have hm : cs[m]? = some b := by simpa using h
      have ho2 : offset = ((i + 1 : Nat) : Int) + (m : Int) := by push_cast; omega
      by_cases hc : c = 10
      · subst hc
        obtain ⟨k, j, l, e1, e2, e3⟩ := ih m (i + 1) (line + 1) 1 ho2 hm
        refine ⟨k + 1, j, l, ?_, ?_, e3⟩
        · simp only [findPositionFrom, hlt, if_true, e1]
          simp only [Prod.mk.injEq]
          constructor
          · push_cast; omega
          · simp
        · simpa [splitLines_cons_newline] using e2
      · obtain ⟨k, j, l, e1, e2, e3⟩ := ih m (i + 1) line (col + 1) ho2 hm
        obtain ⟨hd, tl, s1, s2⟩ := splitLines_cons_other c cs hc
        cases k with
        | zero =>
          have hl : l = hd := by
            rw [s1] at e2
            simpa using e2.symm
          subst hl
          refine ⟨0, j + 1, c :: l, ?_, by simp [s2], by simpa using e3⟩
          simp only [findPositionFrom, hlt, if_true, hc, if_false, e1]
          simp only [Prod.mk.injEq, if_true]
          constructor
          · simp
          · push_cast; omega
        | succ k =>
          refine ⟨k + 1, j, l, ?_, ?_, e3⟩
          · simp only [findPositionFrom, hlt, if_true, hc, if_false, e1]
            simp
          · rw [s1] at e2
            rw [s2]
            simpa using e2

/-- The line number of `findPosition` never exceeds the number of pieces of
the input split on newlines. -/
theorem findPosition_line_le (input : List Nat) (offset : Int) :
    (findPosition input offset).1 ≤ ((splitLines input).length : Int) := by
  rw [findPosition_eq, splitLines_length]
  have h : newlineCount (input.take (clampOffset input offset)) ≤ newlineCount input :=
    (List.take_sublist _ _).count_le 10
  simp only
  omega

/-- C7: for an offset inside the input whose byte is not a newline, with
`(line, col) = findPosition(input, offset)` and `lines` the input split on
newlines: `1 <= line <= len(lines)`, `1 <= col <= len(lines[line-1])`, the
byte `lines[line-1][col-1]` is `input[offset]`, and `printErrorContext`
prints that line and, below it, `col-1` spaces and the caret. -/
theorem printErrorContext_points_at_offset (input : List Nat) (offset b : Nat)
    (hb : input[offset]? = some b) (hnl : b ≠ 10) :
    ∃ lineContent : List Nat,
      1 ≤ (findPosition input offset).1 ∧
      (findPosition input offset).1 ≤ ((splitLines input).length : Int) ∧
      (splitLines input)[((findPosition input offset).1 - 1).toNat]? = some lineContent ∧
      1 ≤ (findPosition input offset).2 ∧
      (findPosition input offset).2 ≤ (lineContent.length : Int) ∧
      lineContent[((findPosition input offset).2 - 1).toNat]? = some b ∧
      printErrorContext input offset
        = some ([32, 32] ++ lineContent ++ [10] ++ [32, 32]
            ++ List.replicate ((findPosition input offset).2 - 1).toNat 32 ++ caretText ++ [10]) := by
  obtain ⟨k, j, l, e1, e2, e3⟩ :=
    findPositionFrom_line (offset : Int) b hnl input offset 0 1 1 (by simp) hb
  have hfp : findPosition input offset = (1 + (k : Int), 1 + (j : Int)) := by
    unfold findPosition
    rw [e1]
    simp
  have hk : k < (splitLines input).length := (List.getElem?_eq_some.mp e2).1
  have hj : j < l.length := (List.getElem?_eq_some.mp e3).1
  have ek : ((1 : Int) + (k : Int) - 1).toNat = k := by omega
  have ej : ((1 : Int) + (j : Int) - 1).toNat = j := by omega
  refine ⟨l, ?_, ?_, ?_, ?_, ?_, ?_, ?_⟩
  · rw [hfp]; simp only; omega
  · rw [hfp]; simp only; omega
  · rw [hfp]; simp only; rw [ek]; exact e2
  · rw [hfp]; simp only; omega
  · rw [hfp]; simp only; omega
  · rw [hfp]; simp only; rw [ej]; exact e3
  · unfold printErrorContext
    rw [hfp]
    have h1 : (1 : Int) + (k : Int) ≤ ((splitLines input).length : Int) := by omega
    have h2 : ¬ ((1 : Int) + (k : Int) - 1 < 0) := by omega
    have h3 : ¬ ((1 : Int) + (j : Int) - 1 < 0) := by omega
    simp only [h1, if_true, h2, if_false, ek, e2, h3, ej]

/-- The error context of a two-line text at the byte `x` of its second line. -/
theorem printErrorContext_points_at_offset_witness :
    ∃ lineContent : List Nat,
      1 ≤ (findPosition docTwoLines (2 : Nat)).1 ∧
      (findPosition docTwoLines (2 : Nat)).1 ≤ ((splitLines docTwoLines).length : Int) ∧
      (splitLines docTwoLines)[((findPosition docTwoLines (2 : Nat)).1 - 1).toNat]?
        = some lineContent ∧
      1 ≤ (findPosition docTwoLines (2 : Nat)).2 ∧
      (findPosition docTwoLines (2 : Nat)).2 ≤ (lineContent.length : Int) ∧
      lineContent[((findPosition docTwoLines (2 : Nat)).2 - 1).toNat]? = some 120 ∧
      printErrorContext docTwoLines (2 : Nat)
        = some ([32, 32] ++ lineContent ++ [10] ++ [32, 32]
            ++ List.replicate ((findPosition docTwoLines (2 : Nat)).2 - 1).toNat 32
            ++ caretText ++ [10]) :=
  printErrorContext_points_at_offset docTwoLines 2 120 (by decide) (by decide)

/-- C8: `printErrorContext` never panics: for every input and every integer
offset it returns; the line and column of `findPosition` are at least 1, so
the repeat count `col-1` is not negative, and whenever the guard
`line <= len(lines)` holds the index `line-1` is within the split lines. -/
theorem printErrorContext_never_panics (input : List Nat) (offset : Int) :
    (∃ out, printErrorContext input offset = some out) ∧
    0 ≤ (findPosition input offset).2 - 1 ∧
    ((findPosition input offset).1 ≤ ((splitLines input).length : Int) →
      0 ≤ (findPosition input offset).1 - 1 ∧
      (findPosition input offset).1 - 1 < ((splitLines input).length : Int)) := by
  obtain ⟨h1, h2⟩ := findPosition_pos input offset
  refine ⟨?_, by omega, fun h => ⟨by omega, by omega⟩⟩
  unfold printErrorContext
  generalize findPosition input offset = r at h1 h2
  obtain ⟨line, col⟩ := r
  simp only at h1 h2 ⊢
  by_cases hle : line ≤ ((splitLines input).length : Int)
  · have h3 : ¬ (line - 1 < 0) := by omega
    have h4 : ¬ (col - 1 < 0) := by omega
    have h5 : (line - 1).toNat < (splitLines input).length := by omega
    simp only [hle, if_true, h3, if_false, List.getElem?_eq_getElem h5, h4]
    exact ⟨_, rfl⟩
  · simp only [hle, if_false]
    exact ⟨_, rfl⟩

/-- The index `line-1` on the empty input with a negative offset. -/
theorem printErrorContext_never_panics_witness :
    0 ≤ (findPosition [] (-3)).1 - 1 ∧
    (findPosition [] (-3)).1 - 1 < ((splitLines []).length : Int) :=
  (printErrorContext_never_panics [] (-3)).2.2 (by decide)

/-! ### `sortKeys` -/

theorem keyLe_total : ∀ a b : List Nat, keyLe a b = true ∨ keyLe b a = true
  | [], _ => Or.inl (by simp [keyLe])
  | _ :: _, [] => Or.inr (by simp [keyLe])
  | a :: as, b :: bs => by
    rcases Nat.lt_trichotomy a b with h | h | h
    · exact Or.inl (by simp [keyLe, h])
    · subst h
      simpa [keyLe] using keyLe_total as bs
    · exact Or.inr (by simp [keyLe, h])

theorem keyLe_trans : ∀ a b c : List Nat, keyLe a b = true → keyLe b c = true → keyLe a c = true
  | [], _, _, _, _ => by simp [keyLe]
  | _ :: _, [], _, h, _ => by simp [keyLe] at h
  | _ :: _, _ :: _, [], _, h => by simp [keyLe] at h
  | a :: as, b :: bs, c :: cs, h1, h2 => by
    simp only [keyLe] at h1 h2 ⊢
    by_cases hab : a < b
    · by_cases hbc : b < c
      · have : a < c := by omega
        simp [this]
      · by_cases hcb : c < b
        · simp [hbc, hcb] at h2
        · have : a < c := by omega
          simp [this]
    · by_cases hba : b < a
      · simp [hab, hba] at h1
      · have hab2 : a = b := by omega
        subst hab2
        simp only [hab, if_false] at h1
        by_cases hbc : a < c
        · simp [hbc]
        · by_cases hcb : c < a
          · simp [hbc, hcb] at h2
          · simp only [hbc, hcb, if_false] at h2 ⊢
            exact keyLe_trans as bs cs h1 h2

theorem mapSet_fresh (m : List (List Nat × JValue)) (k : List Nat) (v : JValue)
    (h : k ∉ m.map Prod.fst) : mapSet m k v = m ++ [(k, v)] := by
  induction m with
  | nil => rfl
  | cons p rest ih =>
    obtain ⟨k2, v2⟩ := p
    have h1 : k2 ≠ k := fun e => h (by simp [e])
    have h2 : k ∉ rest.map Prod.fst := fun e => h (List.mem_cons_of_mem _ e)
    simp [mapSet, h1, ih h2]

theorem mapSet_keys (m : List (List Nat × JValue)) (k : List Nat) (v : JValue) :
    (mapSet m k v).map Prod.fst
      = if k ∈ m.map Prod.fst then m.map Prod.fst else m.map Prod.fst ++ [k] := by
  induction m with
  | nil => simp [mapSet]
  | cons p rest ih =>
    obtain ⟨k2, v2⟩ := p
    by_cases h1 : k2 = k
    · simp [mapSet, h1]
    · have h2 : ¬ k = k2 := fun e => h1 e.symm
      simp only [mapSet, h1, if_false, List.map_cons, ih, List.mem_cons, h2, false_or]
      split_ifs <;> simp

theorem mapSet_keys_nodup (m : List (List Nat × JValue)) (k : List Nat) (v : JValue)
    (h : (m.map Prod.fst).Nodup) : ((mapSet m k v).map Prod.fst).Nodup := by
  rw [mapSet_keys]
  split_ifs with hk
  · exact h
  · exact List.nodup_append.mpr ⟨h, List.nodup_singleton k, by
      intro a ha hb
      rw [List.mem_singleton] at hb
      exact hk (hb ▸ ha)⟩

theorem mapSet_distinctKeysFields (m : List (List Nat × JValue)) (k : List Nat) (v : JValue)
    (hm : DistinctKeysFields m) (hv : DistinctKeys v) : DistinctKeysFields (mapSet m k v) := by
  induction m with
  | nil => simp [mapSet, DistinctKeysFields, hv]
  | cons p rest ih =>
    obtain ⟨k2, v2⟩ := p
    simp only [DistinctKeysFields] at hm
    by_cases h1 : k2 = k
    · simp [mapSet, h1, DistinctKeysFields, hv, hm.2]
    · simp [mapSet, h1, DistinctKeysFields, hm.1, ih hm.2]

mutual
/-- On a value whose maps have distinct keys, `sortKeys` returns an equal
value: every map is rebuilt with the same entries. -/
theorem sortKeys_fixed : ∀ v : JValue, DistinctKeys v → sortKeys v = v
  | .null, _ => by simp [sortKeys]
  | .bool _, _ => by simp [sortKeys]
  | .number _, _ => by simp [sortKeys]
  | .string _, _ => by simp [sortKeys]
  | .array xs, h => by
    simp only [DistinctKeys] at h
    simp [sortKeys, sortKeysElems_fixed xs h]
  | .object m, h => by
    simp only [DistinctKeys] at h
    simp [sortKeys, sortKeysFields_fixed m [] (by simpa using h.1) h.2]
theorem sortKeysElems_fixed : ∀ xs : List JValue, DistinctKeysElems xs → sortKeysElems xs = xs
  | [], _ => by simp [sortKeysElems]
  | x :: xs, h => by
    simp only [DistinctKeysElems] at h
    simp [sortKeysElems, sortKeys_fixed x h.1, sortKeysElems_fixed xs h.2]
theorem sortKeysFields_fixed : ∀ (m acc : List (List Nat × JValue)),
    ((acc ++ m).map Prod.fst).Nodup → DistinctKeysFields m → sortKeysFields m acc = acc ++ m
  | [], acc, _, _ => by simp [sortKeysFields]
  | (k, v) :: rest, acc, hn, h => by
    simp only [DistinctKeysFields] at h
    have hk : k ∉ acc.map Prod.fst := by
      intro hmem
      simp only [List.map_append, List.map_cons] at hn
      exact (List.nodup_append.mp hn).2.2 hmem (List.mem_cons_self _ _)
    have hn2 : (((acc ++ [(k, v)]) ++ rest).map Prod.fst).Nodup := by simpa using hn
    simp only [sortKeysFields, sortKeys_fixed v h.1, mapSet_fresh acc k v hk]
    rw [sortKeysFields_fixed rest (acc ++ [(k, v)]) hn2 h.2]
    simp
end

mutual
/-- Every map of a value returned by `sortKeys` has distinct keys. -/
theorem sortKeys_distinctKeys : ∀ v : JValue, DistinctKeys (sortKeys v)
  | .null => by simp [sortKeys, DistinctKeys]
  | .bool _ => by simp [sortKeys, DistinctKeys]
  | .number _ => by simp [sortKeys, DistinctKeys]
  | .string _ => by simp [sortKeys, DistinctKeys]
  | .array xs => by
    simp only [sortKeys, DistinctKeys]
    exact sortKeysElems_distinctKeys xs
  | .object m => by
    simp only [sortKeys, DistinctKeys]
    exact sortKeysFields_distinctKeys m [] (by simp) (by simp [DistinctKeysFields])
theorem sortKeysElems_distinctKeys : ∀ xs : List JValue, DistinctKeysElems (sortKeysElems xs)
  | [] => by simp [sortKeysElems, DistinctKeysElems]
  | x :: xs => by
    simp only [sortKeysElems, DistinctKeysElems]
    exact ⟨sortKeys_distinctKeys x, sortKeysElems_distinctKeys xs⟩
theorem sortKeysFields_distinctKeys : ∀ (m acc : List (List Nat × JValue)),
    (acc.map Prod.fst).Nodup → DistinctKeysFields acc →
      ((sortKeysFields m acc).map Prod.fst).Nodup ∧ DistinctKeysFields (sortKeysFields m acc)
  | [], acc, hn, h => by simpa [sortKeysFields] using ⟨hn, h⟩
  | (k, v) :: rest, acc, hn, h => by
    simp only [sortKeysFields]
    exact sortKeysFields_distinctKeys rest (mapSet acc k (sortKeys v))
      (mapSet_keys_nodup acc k _ hn)
      (mapSet_distinctKeysFields acc k _ h (sortKeys_distinctKeys v))
end

/-- C10: `sortKeys` is idempotent on every decoded value. -/
theorem sortKeys_idempotent (v : JValue) : sortKeys (sortKeys v) = sortKeys v :=
  sortKeys_fixed (sortKeys v) (sortKeys_distinctKeys v)

/-- C9, at the failing input: for the decoded value of `{"b":2,"a":1}`,
`sortKeys` returns a map with the same two entries; nothing in it sorts them,
and visited in the order `b`, `a`, one of the orders Go allows for this map,
its keys are not in non-decreasing order. -/
theorem sortKeys_valueBA_not_sorted :
    sortKeys valueBA = .object [([98], .number 2), ([97], .number 1)] ∧
    [([98], JValue.number 2), ([97], JValue.number 1)] ∈ objectsOf (sortKeys valueBA) ∧
    ¬ keysNonDecreasing ([([98], JValue.number 2), ([97], JValue.number 1)].map Prod.fst) :=
  ⟨rfl, List.mem_cons_self _ _, by decide⟩

/-! ### Deleting the markers from the output of `colorize` -/

theorem stripAux_colorReset (rest : List Nat) :
    stripAux 0 (colorReset ++ rest) = stripAux 0 rest := by
  simp [stripAux, markerAt, markers, colorReset, colorKey, colorString, colorNumber, colorBool,
    colorNull, colorBrace, List.isPrefixOf]

theorem stripAux_colorKey (rest : List Nat) :
    stripAux 0 (colorKey ++ rest) = stripAux 0 rest := by
  simp [stripAux, markerAt, markers, colorReset, colorKey, colorString, colorNumber, colorBool,
    colorNull, colorBrace, List.isPrefixOf]

theorem stripAux_colorString (rest : List Nat) :
    stripAux 0 (colorString ++ rest) = stripAux 0 rest := by
  simp [stripAux, markerAt, markers, colorReset, colorKey, colorString, colorNumber, colorBool,
    colorNull, colorBrace, List.isPrefixOf]

theorem stripAux_colorNumber (rest : List Nat) :
    stripAux 0 (colorNumber ++ rest) = stripAux 0 rest := by
  simp [stripAux, markerAt, markers, colorReset, colorKey, colorString, colorNumber, colorBool,
    colorNull, colorBrace, List.isPrefixOf]

theorem stripAux_colorBool (rest : List Nat) :
    stripAux 0 (colorBool ++ rest) = stripAux 0 rest := by
  simp [stripAux, markerAt, markers, colorReset, colorKey, colorString, colorNumber, colorBool,
    colorNull, colorBrace, List.isPrefixOf]

theorem stripAux_colorNull (rest : List Nat) :
    stripAux 0 (colorNull ++ rest) = stripAux 0 rest := by
  simp [stripAux, markerAt, markers, colorReset, colorKey, colorString, colorNumber, colorBool,
    colorNull, colorBrace, List.isPrefixOf]

theorem stripAux_colorBrace (rest : List Nat) :
    stripAux 0 (colorBrace ++ rest) = stripAux 0 rest := by
  simp [stripAux, markerAt, markers, colorReset, colorKey, colorString, colorNumber, colorBool,
    colorNull, colorBrace, List.isPrefixOf]

theorem stripAux_plain (c : Nat) (rest : List Nat) (hc : c ≠ 27) :
    stripAux 0 (c :: rest) = c :: stripAux 0 rest := by
  have h : (27 : Nat) ≠ c := fun e => hc e.symm
  simp [stripAux, markerAt, markers, colorReset, colorKey, colorString, colorNumber, colorBool,
    colorNull, colorBrace, List.isPrefixOf, h]

theorem stripAux_plain_append (l rest : List Nat) (hl : ∀ c ∈ l, c ≠ 27) :
    stripAux 0 (l ++ rest) = l ++ stripAux 0 rest := by
  induction l with
  | nil => rfl
  | cons c l ih =>
    have hc : c ≠ 27 := hl c (List.mem_cons_self _ _)
    have ht : ∀ x ∈ l, x ≠ 27 := fun x hx => hl x (List.mem_cons_of_mem _ hx)
    rw [List.cons_append, stripAux_plain c _ hc, ih ht, List.cons_append]

theorem stripAux_length_le : ∀ (t : List Nat) (k : Nat), (stripAux k t).length ≤ t.length
  | [], k => by simp [stripAux]
  | c :: t, k + 1 => by
    simp only [stripAux, List.length_cons]
    exact Nat.le_succ_of_le (stripAux_length_le t k)
  | c :: t, 0 => by
    simp only [stripAux]
    cases markerAt (c :: t) with
    | none =>
      simp only [List.length_cons]
      exact Nat.succ_le_succ (stripAux_length_le t 0)
    | some n =>
      simp only [List.length_cons]
      exact Nat.le_succ_of_le (stripAux_length_le t (n - 1))

theorem take_of_isPrefixOf {p l : List Nat} (h : p.isPrefixOf l = true) :
    l.take p.length = p := by
  obtain ⟨r, hr⟩ := List.isPrefixOf_iff_prefix.mp h
  rw [← hr, List.take_left]

theorem take_numberRun (l : List Nat) : l.take (numberRun l).length = numberRun l := by
  have h : numberRun l ++ l.dropWhile isNumberChar = l := List.takeWhile_append_dropWhile _ _
  have h2 : (numberRun l ++ l.dropWhile isNumberChar).take (numberRun l).length = numberRun l :=
    List.take_left _ _
  rw [h] at h2
  exact h2

/-- On a text of ASCII bytes without ESC, one iteration appends a chunk to the
output from which deleting the markers leaves exactly the bytes the cursor
has moved over. -/
theorem colorizeStep_chunk (s : List Nat) (hs : ∀ c ∈ s, c < 128 ∧ c ≠ 27) (st : ScanState)
    (h : st.i < s.length) :
    ∃ st1 chunk n, colorizeStep s st = some st1 ∧ st1.result = st.result ++ chunk ∧
      st1.i = st.i + n ∧
      ∀ X, stripAux 0 (chunk ++ X) = (s.drop st.i).take n ++ stripAux 0 X := by
  have hc : s[st.i]? = some s[st.i] := List.getElem?_eq_getElem h
  have hmem : s[st.i] ∈ s := List.getElem_mem h
  obtain ⟨ha, he⟩ := hs _ hmem
  have hb : byteToString s[st.i] = [s[st.i]] := byteToString_ascii ha
  have ht1 : (s.drop st.i).take 1 = [s[st.i]] := by
    rw [drop_eq_cons_of_getElem? hc]; rfl
  unfold colorizeStep
  rw [hc]
  simp only [hb]
  split_ifs with h1 h2 h3 h4 h5 h6 h7 h8 h9
  · refine ⟨_, [s[st.i]] ++ colorReset, 1, rfl, by simp, rfl, ?_⟩
    intro X
    rw [ht1, List.append_assoc, List.singleton_append, stripAux_plain _ _ he, stripAux_colorReset]
    rfl
  · refine ⟨_, colorKey ++ [s[st.i]], 1, rfl, by simp, rfl, ?_⟩
    intro X
    rw [ht1, List.append_assoc, stripAux_colorKey, List.singleton_append, stripAux_plain _ _ he]
    rfl
  · refine ⟨_, colorString ++ [s[st.i]], 1, rfl, by simp, rfl, ?_⟩
    intro X
    rw [ht1, List.append_assoc, stripAux_colorString, List.singleton_append,
      stripAux_plain _ _ he]
    rfl
  · refine ⟨_, [s[st.i]], 1, rfl, rfl, rfl, ?_⟩
    intro X
    rw [ht1, List.singleton_append, stripAux_plain _ _ he]
    rfl
  · refine ⟨_, colorBrace ++ [s[st.i]] ++ colorReset, 1, rfl, by simp, rfl, ?_⟩
    intro X
    rw [ht1, List.append_assoc, List.append_assoc, stripAux_colorBrace, List.singleton_append,
      stripAux_plain _ _ he, stripAux_colorReset]
    rfl
  · refine ⟨_, colorNumber ++ numberRun (s.drop st.i) ++ colorReset,
      (numberRun (s.drop st.i)).length, rfl, by simp [numberRun_flatMap], rfl, ?_⟩
    intro X
    have hrun : ∀ c ∈ numberRun (s.drop st.i), c ≠ 27 := by
      intro c hc2 e
      have := List.mem_takeWhile_imp hc2
      rw [e] at this
      simp [isNumberChar] at this
    rw [take_numberRun, List.append_assoc, List.append_assoc, stripAux_colorNumber,
      stripAux_plain_append _ _ hrun, stripAux_colorReset]
  · refine ⟨_, colorBool ++ litTrue ++ colorReset, 4, rfl, by simp, rfl, ?_⟩
    intro X
    have ht : (s.drop st.i).take 4 = litTrue := take_of_isPrefixOf h7
    rw [ht, List.append_assoc, List.append_assoc, stripAux_colorBool,
      stripAux_plain_append litTrue _ (by decide), stripAux_colorReset]
  · refine ⟨_, colorBool ++ litFalse ++ colorReset, 5, rfl, by simp, rfl, ?_⟩
    intro X
    have ht : (s.drop st.i).take 5 = litFalse := take_of_isPrefixOf h8
    rw [ht, List.append_assoc, List.append_assoc, stripAux_colorBool,
      stripAux_plain_append litFalse _ (by decide), stripAux_colorReset]
  · refine ⟨_, colorNull ++ litNull ++ colorReset, 4, rfl, by simp, rfl, ?_⟩
    intro X
    have ht : (s.drop st.i).take 4 = litNull := take_of_isPrefixOf h9
    rw [ht, List.append_assoc, List.append_assoc, stripAux_colorNull,
      stripAux_plain_append litNull _ (by decide), stripAux_colorReset]
  · refine ⟨_, [s[st.i]], 1, rfl, rfl, rfl, ?_⟩
    intro X
    rw [ht1, List.singleton_append, stripAux_plain _ _ he]
    rfl

theorem colorizeLoop_strip (s : List Nat) (hs : ∀ c ∈ s, c < 128 ∧ c ≠ 27) :
    ∀ (fuel : Nat) (st st2 : ScanState), colorizeLoop s fuel st = some st2 →
      ∃ out, st2.result = st.result ++ out ∧ stripAux 0 out = s.drop st.i := by
  intro fuel
  induction fuel with
  | zero =>
    intro st st2 h
    by_cases hlt : st.i < s.length
    · simp [colorizeLoop, hlt] at h
    · simp only [colorizeLoop, hlt, if_false, Option.some.injEq] at h
      subst h
      exact ⟨[], by simp, by rw [List.drop_eq_nil_of_le (by omega)]; rfl⟩
  | succ n ih =>
    intro st st2 h
    by_cases hlt : st.i < s.length
    · obtain ⟨st1, chunk, k, e1, e2, e3, e4⟩ := colorizeStep_chunk s hs st hlt
      simp only [colorizeLoop, hlt, if_true, e1, Option.some_bind] at h
      obtain ⟨out, o1, o2⟩ := ih st1 st2 h
      refine ⟨chunk ++ out, by rw [o1, e2, List.append_assoc], ?_⟩
      rw [e4, o2, e3, ← List.drop_drop, List.take_append_drop]
    · simp only [colorizeLoop, hlt, if_false, Option.some.injEq] at h
      subst h
      exact ⟨[], by simp, by rw [List.drop_eq_nil_of_le (by omega)]; rfl⟩

/-- On every text of ASCII bytes without ESC, `colorize` is lossless:
deleting the markers from its output gives the text back, and the output is
at least as long as the text. -/
theorem colorize_lossless_ascii (s : List Nat) (hs : ∀ c ∈ s, c < 128 ∧ c ≠ 27) :
    ∃ r, colorize s = some r ∧ stripMarkers r = s ∧ s.length ≤ r.length := by
  obtain ⟨st2, h2, _⟩ :=
    colorizeLoop_total s s.length initState (Nat.zero_le _) (by simp [initState])
  obtain ⟨out, o1, o2⟩ := colorizeLoop_strip s hs s.length initState st2 h2
  have hr : st2.result = out := by simpa [initState] using o1
  have hstrip : stripMarkers st2.result = s := by
    rw [hr]
    simpa [stripMarkers, initState] using o2
  refine ⟨st2.result, by simp [colorize, h2], hstrip, ?_⟩
  have := stripAux_length_le st2.result 0
  rw [show stripAux 0 st2.result = s from hstrip] at this
  exact this

/-! ### `sortKeys`: contents -/

theorem sortKeysElems_eq_map : ∀ xs : List JValue, sortKeysElems xs = xs.map sortKeys
  | [] => by simp [sortKeysElems]
  | x :: xs => by simp [sortKeysElems, sortKeysElems_eq_map xs]

/-- A map with distinct keys is rebuilt entry by entry: the same keys, each
with `sortKeys` of its value. -/
theorem sortKeysFields_eq_map : ∀ (m acc : List (List Nat × JValue)),
    ((acc ++ m).map Prod.fst).Nodup →
      sortKeysFields m acc = acc ++ m.map (fun p => (p.1, sortKeys p.2))
  | [], acc, _ => by simp [sortKeysFields]
  | (k, v) :: rest, acc, hn => by
    have hk : k ∉ acc.map Prod.fst := by
      intro hmem
      simp only [List.map_append, List.map_cons] at hn
      exact (List.nodup_append.mp hn).2.2 hmem (List.mem_cons_self _ _)
    have hn2 : (((acc ++ [(k, sortKeys v)]) ++ rest).map Prod.fst).Nodup := by simpa using hn
    simp only [sortKeysFields, mapSet_fresh acc k _ hk]
    rw [sortKeysFields_eq_map rest (acc ++ [(k, sortKeys v)]) hn2]
    simp

theorem lookup_map_snd (f : JValue → JValue) (k : List Nat) :
    ∀ m : List (List Nat × JValue),
      (m.map (fun p => (p.1, f p.2))).lookup k = (m.lookup k).map f
  | [] => by simp
  | (k2, v) :: rest => by
    by_cases h : k = k2
    · subst h
      simp [List.lookup]
    · have h2 : (k == k2) = false := by simpa using h
      simp only [List.map_cons, List.lookup, h2]
      exact lookup_map_snd f k rest

/-- C11: `sortKeys` keeps the content at every level.  A map (its keys being
distinct, as in every Go map) becomes a map with exactly the same keys in
which each key has `sortKeys` of its original value; an array becomes an
array of the same length whose i-th element is `sortKeys` of the original
i-th element; `null`, a boolean, a number and a string are returned
unchanged. -/
theorem sortKeys_preserves_content :
    (∀ m : List (List Nat × JValue), (m.map Prod.fst).Nodup →
      ∃ m2, sortKeys (.object m) = .object m2 ∧ (m2.map Prod.fst).Nodup ∧
        (∀ k, k ∈ m2.map Prod.fst ↔ k ∈ m.map Prod.fst) ∧
        (∀ k, m2.lookup k = (m.lookup k).map sortKeys)) ∧
    (∀ xs : List JValue,
      ∃ ys, sortKeys (.array xs) = .array ys ∧ ys.length = xs.length ∧
        (∀ i : Nat, ys[i]? = (xs[i]?).map sortKeys)) ∧
    sortKeys .null = .null ∧ (∀ b, sortKeys (.bool b) = .bool b) ∧
    (∀ n, sortKeys (.number n) = .number n) ∧ (∀ s, sortKeys (.string s) = .string s) := by
  refine ⟨?_, ?_, by simp [sortKeys], by simp [sortKeys], by simp [sortKeys], by simp [sortKeys]⟩
  · intro m hn
    have hk : (m.map (fun p : List Nat × JValue => (p.1, sortKeys p.2))).map Prod.fst
        = m.map Prod.fst := by
      simp [List.map_map, Function.comp_def]
    refine ⟨m.map (fun p => (p.1, sortKeys p.2)), ?_, ?_, ?_, ?_⟩
    · simp [sortKeys, sortKeysFields_eq_map m [] (by simpa using hn)]
    · rw [hk]; exact hn
    · intro k; rw [hk]
    · intro k; exact lookup_map_snd sortKeys k m
  · intro xs
    refine ⟨xs.map sortKeys, by simp [sortKeys, sortKeysElems_eq_map], by simp, ?_⟩
    intro i
    simp

/-- The content of the decoded value of `{"b":{"d":1,"c":2},"a":[]}`. -/
theorem sortKeys_preserves_content_witness :
    ∃ m2, sortKeys (.object [([98], .object [([100], .number 1), ([99], .number 2)]),
          ([97], .array [])]) = .object m2 ∧ (m2.map Prod.fst).Nodup ∧
        (∀ k, k ∈ m2.map Prod.fst ↔ k ∈ ([([98], JValue.object [([100], .number 1),
          ([99], .number 2)]), ([97], JValue.array [])].map Prod.fst)) ∧
        (∀ k, m2.lookup k = (([([98], JValue.object [([100], .number 1),
          ([99], .number 2)]), ([97], JValue.array [])] : List (List Nat × JValue)).lookup k).map
            sortKeys) :=
  sortKeys_preserves_content.1 _ (by decide)

/-! ### `fixJSON` -/

theorem replaceAllAux_skip (matchAt : List Nat → Option (List Nat × Nat)) :
    ∀ pre rest : List Nat,
      replaceAllAux matchAt pre.length (pre ++ rest) = replaceAllAux matchAt 0 rest
  | [], rest => rfl
  | c :: pre, rest => by
    simp only [List.length_cons, List.cons_append, replaceAllAux]
    exact replaceAllAux_skip matchAt pre rest

theorem replaceAllAux_copy (matchAt : List Nat → Option (List Nat × Nat)) (c : Nat)
    (t : List Nat) (h : matchAt (c :: t) = none) :
    replaceAllAux matchAt 0 (c :: t) = c :: replaceAllAux matchAt 0 t := by
  simp [replaceAllAux, h]

theorem replaceAllAux_match (matchAt : List Nat → Option (List Nat × Nat)) (c : Nat)
    (pre rest repl : List Nat) (h : matchAt (c :: (pre ++ rest)) = some (repl, pre.length + 1)) :
    replaceAllAux matchAt 0 (c :: (pre ++ rest)) = repl ++ replaceAllAux matchAt 0 rest := by
  simp only [replaceAllAux, h, Nat.add_sub_cancel]
  rw [replaceAllAux_skip]

theorem matchTrailingComma_of_ne (c : Nat) (t : List Nat) (h : c ≠ 44) :
    matchTrailingComma (c :: t) = none := by
  simp [matchTrailingComma, h]

theorem matchQuotedKey_of_ne (c : Nat) (t : List Nat) (h : c ≠ 39) :
    matchQuotedKey (c :: t) = none := by
  simp [matchQuotedKey, h]

theorem matchQuotedValue_of_ne (c : Nat) (t : List Nat) (h : c ≠ 58) :
    matchQuotedValue (c :: t) = none := by
  simp [matchQuotedValue, h]

theorem matchQuotedValue_no_quote (t : List Nat) (h : 39 ∉ t) : matchQuotedValue t = none := by
  cases t with
  | nil => rfl
  | cons c r =>
    by_cases hc : c = 58
    · cases hd : r.dropWhile isSpace with
      | nil => simp [matchQuotedValue, hd]
      | cons q b =>
        have hq : q ∈ r := (List.dropWhile_sublist isSpace).subset (hd ▸ List.mem_cons_self q b)
        have hq2 : q ≠ 39 := fun e => h (List.mem_cons_of_mem _ (e ▸ hq))
        simp [matchQuotedValue, hd, hq2]
    · exact matchQuotedValue_of_ne c r hc

/-- A replacement pass copies a stretch of bytes none of which begins a match. -/
theorem replaceAllAux_copy_append (matchAt : List Nat → Option (List Nat × Nat)) :
    ∀ (l rest : List Nat), (∀ c ∈ l, ∀ t, matchAt (c :: t) = none) →
      replaceAllAux matchAt 0 (l ++ rest) = l ++ replaceAllAux matchAt 0 rest
  | [], _, _ => rfl
  | c :: l, rest, h => by
    have h1 : matchAt (c :: (l ++ rest)) = none := h c (List.mem_cons_self _ _) _
    have h2 : ∀ x ∈ l, ∀ t, matchAt (x :: t) = none :=
      fun x hx => h x (List.mem_cons_of_mem _ hx)
    rw [List.cons_append, replaceAllAux_copy matchAt c _ h1,
      replaceAllAux_copy_append matchAt l rest h2, List.cons_append]

theorem replaceAll_trailingComma_id (s : List Nat) (h : 44 ∉ s) :
    replaceAll matchTrailingComma s = s := by
  have := replaceAllAux_copy_append matchTrailingComma s []
    (fun c hc t => matchTrailingComma_of_ne c t (fun e => h (e ▸ hc)))
  simpa [replaceAll, replaceAllAux] using this

theorem replaceAll_quotedKey_id (s : List Nat) (h : 39 ∉ s) :
    replaceAll matchQuotedKey s = s := by
  have := replaceAllAux_copy_append matchQuotedKey s []
    (fun c hc t => matchQuotedKey_of_ne c t (fun e => h (e ▸ hc)))
  simpa [replaceAll, replaceAllAux] using this

theorem replaceAll_quotedValue_id : ∀ s : List Nat, 39 ∉ s →
    replaceAll matchQuotedValue s = s
  | [], _ => rfl
  | c :: t, h => by
    have ht : 39 ∉ t := fun e => h (List.mem_cons_of_mem _ e)
    have := replaceAll_quotedValue_id t ht
    unfold replaceAll at this ⊢
    rw [replaceAllAux_copy matchQuotedValue c t (matchQuotedValue_no_quote _ h), this]

theorem deleteTrailingCommas_append (l rest : List Nat) (h : 44 ∉ l) :
    deleteTrailingCommas (l ++ rest) = l ++ deleteTrailingCommas rest := by
  induction l with
  | nil => rfl
  | cons c l ih =>
    have hc : c ≠ 44 := fun e => h (e ▸ List.mem_cons_self _ _)
    have hl : 44 ∉ l := fun e => h (List.mem_cons_of_mem _ e)
    simp [deleteTrailingCommas, hc, ih hl]

theorem deleteTrailingCommas_sublist : ∀ s : List Nat, (deleteTrailingCommas s).Sublist s
  | [] => List.Sublist.slnil
  | c :: rest => by
    unfold deleteTrailingCommas
    split_ifs
    · exact (deleteTrailingCommas_sublist rest).cons c
    · exact (deleteTrailingCommas_sublist rest).cons₂ c

theorem isSpace_ne_comma {c : Nat} (h : isSpace c = true) : c ≠ 44 := by
  intro e
  subst e
  simp [isSpace] at h

/-- The first replacement of `fixJSON` deletes the trailing commas and nothing
else. -/
theorem replaceAll_trailingComma_eq :
    ∀ (n : Nat) (s : List Nat), s.length ≤ n →
      replaceAllAux matchTrailingComma 0 s = deleteTrailingCommas s := by
  intro n
  induction n with
  | zero =>
    intro s hs
    have : s = [] := List.length_eq_zero.mp (Nat.le_zero.mp hs)
    subst this
    rfl
  | succ n ih =>
    intro s hs
    cases s with
    | nil => rfl
    | cons c r =>
      have hr : r.length ≤ n := by simpa using hs
      have hsplit : r.takeWhile isSpace ++ r.dropWhile isSpace = r :=
        List.takeWhile_append_dropWhile _ _
      have hws : 44 ∉ r.takeWhile isSpace :=
        fun e => isSpace_ne_comma (List.mem_takeWhile_imp e) rfl
      by_cases hc : c = 44
      · subst hc
        cases hd : r.dropWhile isSpace with
        | nil =>
          have hm : matchTrailingComma (44 :: r) = none := by simp [matchTrailingComma, hd]
          rw [replaceAllAux_copy _ _ _ hm, ih r hr]
          simp [deleteTrailingCommas, commaIsTrailing, hd]
        | cons b r2 =>
          rw [hd] at hsplit
          have hr2 : r2.length ≤ n := by
            have := congrArg List.length hsplit
            simp only [List.length_append, List.length_cons] at this
            omega
          by_cases hb : b = 125 ∨ b = 93
          · have hb44 : b ≠ 44 := by omega
            have hm : matchTrailingComma (44 :: ((r.takeWhile isSpace ++ [b]) ++ r2))
                = some (r.takeWhile isSpace ++ [b], (r.takeWhile isSpace ++ [b]).length + 1) := by
              have e : (r.takeWhile isSpace ++ [b]) ++ r2 = r := by
                rw [List.append_assoc]; exact hsplit
              rw [e]
              simp [matchTrailingComma, hd, hb]
            have e : 44 :: r = 44 :: ((r.takeWhile isSpace ++ [b]) ++ r2) := by
              rw [List.append_assoc]; exact congrArg _ hsplit.symm
            have hdel : deleteTrailingCommas (44 :: r) = deleteTrailingCommas r := by
              have : commaIsTrailing r = true := by
                simp only [commaIsTrailing, hd]
                rcases hb with hb | hb <;> simp [hb]
              simp [deleteTrailingCommas, this]
            rw [hdel]
            conv_lhs => rw [e]
            rw [replaceAllAux_match _ _ _ _ _ hm, ih r2 hr2]
            conv_rhs => rw [← hsplit]
            rw [deleteTrailingCommas_append _ _ hws]
            simp [deleteTrailingCommas, hb44]
          · have hm : matchTrailingComma (44 :: r) = none := by
              simp [matchTrailingComma, hd, hb]
            rw [replaceAllAux_copy _ _ _ hm, ih r hr]
            have : commaIsTrailing r = false := by
              simp only [commaIsTrailing, hd]
              simp only [not_or] at hb
              simp [hb.1, hb.2]
            simp [deleteTrailingCommas, this]
      · rw [replaceAllAux_copy _ _ _ (matchTrailingComma_of_ne c r hc), ih r hr]
        simp [deleteTrailingCommas, hc]

/-- C12: on a text without a single quote, `fixJSON` returns the text with
exactly the trailing commas deleted, those followed by optional whitespace
(the class `\s` of the pattern) and then `'}'` or `']'`, and every other byte
kept in its place; and `{"a":1,}` becomes `{"a":1}`. -/
theorem fixJSON_trailing_commas :
    (∀ input : List Nat, 39 ∉ input → fixJSON input = deleteTrailingCommas input) ∧
    fixJSON docTrailingComma = [123, 34, 97, 34, 58, 49, 125] := by
  refine ⟨?_, by decide⟩
  intro input h
  have h1 : replaceAll matchTrailingComma input = deleteTrailingCommas input :=
    replaceAll_trailingComma_eq input.length input (le_refl _)
  have h2 : 39 ∉ deleteTrailingCommas input :=
    fun e => h ((deleteTrailingCommas_sublist input).subset e)
  unfold fixJSON
  rw [h1, replaceAll_quotedKey_id _ h2, replaceAll_quotedValue_id _ h2]

/-- The trailing comma of `[1, ]`. -/
theorem fixJSON_trailing_commas_witness :
    fixJSON [91, 49, 44, 32, 93] = deleteTrailingCommas [91, 49, 44, 32, 93] :=
  fixJSON_trailing_commas.1 [91, 49, 44, 32, 93] (by decide)

theorem takeWhile_notSingleQuote (body rest : List Nat) (h : 39 ∉ body) :
    (body ++ 39 :: rest).takeWhile notSingleQuote = body := by
  induction body with
  | nil => simp [notSingleQuote]
  | cons c body ih =>
    have hc : notSingleQuote c = true := by
      simpa [notSingleQuote] using fun e : c = 39 => h (e ▸ List.mem_cons_self _ _)
    have hb : 39 ∉ body := fun e => h (List.mem_cons_of_mem _ e)
    rw [List.cons_append, List.takeWhile_cons_of_pos hc, ih hb]

theorem dropWhile_notSingleQuote (body rest : List Nat) (h : 39 ∉ body) :
    (body ++ 39 :: rest).dropWhile notSingleQuote = 39 :: rest := by
  induction body with
  | nil => simp [notSingleQuote]
  | cons c body ih =>
    have hc : notSingleQuote c = true := by
      simpa [notSingleQuote] using fun e : c = 39 => h (e ▸ List.mem_cons_self _ _)
    have hb : 39 ∉ body := fun e => h (List.mem_cons_of_mem _ e)
    rw [List.cons_append, List.dropWhile_cons_of_pos hc, ih hb]

/-- The pattern `re2` matches a single-quoted text that a colon follows. -/
theorem matchQuotedKey_colon (body rest : List Nat) (h : 39 ∉ body) :
    matchQuotedKey (39 :: (body ++ 39 :: 58 :: rest))
      = some ([34] ++ body ++ [34, 58], body.length + 3) := by
  simp [matchQuotedKey, takeWhile_notSingleQuote _ _ h, dropWhile_notSingleQuote _ _ h, isSpace]

/-- The pattern `re2` does not match a single-quoted text followed by a byte
that is neither whitespace nor a colon. -/
theorem matchQuotedKey_other (body rest : List Nat) (d : Nat) (h : 39 ∉ body)
    (hd : isSpace d = false) (hd2 : d ≠ 58) :
    matchQuotedKey (39 :: (body ++ 39 :: d :: rest)) = none := by
  simp [matchQuotedKey, dropWhile_notSingleQuote _ _ h, List.dropWhile_cons, hd, hd2]

/-- The pattern `re3` matches a colon, one space and a single-quoted text. -/
theorem matchQuotedValue_space (body rest : List Nat) (h : 39 ∉ body) :
    matchQuotedValue (58 :: 32 :: 39 :: (body ++ 39 :: rest))
      = some ([58, 32, 34] ++ body ++ [34], body.length + 4) := by
  simp [matchQuotedValue, takeWhile_notSingleQuote _ _ h, dropWhile_notSingleQuote _ _ h, isSpace,
    List.takeWhile_cons, List.dropWhile_cons]
  omega

theorem isQuoteFree_iff {c : Nat} :
    isQuoteFree c = true ↔ c ≠ 39 ∧ c ≠ 34 ∧ c ≠ 44 ∧ c ≠ 58 ∧ c ≠ 92 := by
  simp [isQuoteFree, and_assoc]

theorem not_mem_of_isQuoteFree {l : List Nat} (h : ∀ c ∈ l, isQuoteFree c = true) :
    39 ∉ l ∧ 34 ∉ l ∧ 44 ∉ l ∧ 58 ∉ l ∧ 92 ∉ l := by
  refine ⟨?_, ?_, ?_, ?_, ?_⟩ <;> intro e <;> have := isQuoteFree_iff.mp (h _ e) <;> omega

/-- The second replacement of `fixJSON` on `{'k': 'v'}` rewrites the key. -/
theorem replaceAll_quotedKey_singleQuoted (k v : List Nat) (hk : 39 ∉ k) (hv : 39 ∉ v) :
    replaceAll matchQuotedKey (singleQuoted k v)
      = [123, 34] ++ k ++ [34, 58, 32, 39] ++ v ++ [39, 125] := by
  have hm : matchQuotedKey (39 :: ((k ++ [39, 58]) ++ (32 :: 39 :: (v ++ [39, 125]))))
      = some ([34] ++ k ++ [34, 58], (k ++ [39, 58]).length + 1) := by
    have e : (k ++ [39, 58]) ++ (32 :: 39 :: (v ++ [39, 125]))
        = k ++ 39 :: 58 :: (32 :: 39 :: (v ++ [39, 125])) := by simp
    rw [e, matchQuotedKey_colon _ _ hk]
    simp
  have hm2 : matchQuotedKey (39 :: (v ++ [39, 125])) = none :=
    matchQuotedKey_other v [] 125 hv (by decide) (by decide)
  have hm3 : matchQuotedKey [39, 125] = none := by decide
  have e0 : singleQuoted k v
      = 123 :: 39 :: ((k ++ [39, 58]) ++ (32 :: 39 :: (v ++ [39, 125]))) := by
    simp [singleQuoted]
  unfold replaceAll
  rw [e0, replaceAllAux_copy _ _ _ (matchQuotedKey_of_ne 123 _ (by decide)),
    replaceAllAux_match _ _ _ _ _ hm,
    replaceAllAux_copy _ _ _ (matchQuotedKey_of_ne 32 _ (by decide)),
    replaceAllAux_copy _ _ _ hm2,
    replaceAllAux_copy_append matchQuotedKey v [39, 125]
      (fun c hc t => matchQuotedKey_of_ne c t (fun e => hv (e ▸ hc))),
    replaceAllAux_copy _ _ _ hm3,
    replaceAllAux_copy _ _ _ (matchQuotedKey_of_ne 125 _ (by decide))]
  simp [replaceAllAux]

/-- The third replacement of `fixJSON` then rewrites the value. -/
theorem replaceAll_quotedValue_singleQuoted (k v : List Nat) (hk : 58 ∉ k) (hv : 39 ∉ v) :
    replaceAll matchQuotedValue ([123, 34] ++ k ++ [34, 58, 32, 39] ++ v ++ [39, 125])
      = doubleQuoted k v := by
  have hm : matchQuotedValue (58 :: ((32 :: 39 :: (v ++ [39])) ++ [125]))
      = some ([58, 32, 34] ++ v ++ [34], (32 :: 39 :: (v ++ [39])).length + 1) := by
    have e : (32 :: 39 :: (v ++ [39])) ++ [125] = 32 :: 39 :: (v ++ 39 :: [125]) := by simp
    rw [e, matchQuotedValue_space _ _ hv]
    simp
  have e0 : [123, 34] ++ k ++ [34, 58, 32, 39] ++ v ++ [39, 125]
      = 123 :: 34 :: (k ++ 34 :: 58 :: ((32 :: 39 :: (v ++ [39])) ++ [125])) := by simp
  unfold replaceAll
  rw [e0, replaceAllAux_copy _ _ _ (matchQuotedValue_of_ne 123 _ (by decide)),
    replaceAllAux_copy _ _ _ (matchQuotedValue_of_ne 34 _ (by decide)),
    replaceAllAux_copy_append matchQuotedValue k _
      (fun c hc t => matchQuotedValue_of_ne c t (fun e => hk (e ▸ hc))),
    replaceAllAux_copy _ _ _ (matchQuotedValue_of_ne 34 _ (by decide)),
    replaceAllAux_match _ _ _ _ _ hm,
    replaceAllAux_copy _ _ _ (matchQuotedValue_of_ne 125 _ (by decide))]
  simp [replaceAllAux, doubleQuoted]

/-- On `{'k': 'v'}`, with `k` and `v` free of single quotes, commas and
colons, `fixJSON` returns `{"k": "v"}`. -/
theorem fixJSON_singleQuoted (k v : List Nat)
    (hk : 39 ∉ k ∧ 44 ∉ k ∧ 58 ∉ k) (hv : 39 ∉ v ∧ 44 ∉ v) :
    fixJSON (singleQuoted k v) = doubleQuoted k v := by
  have h44 : 44 ∉ singleQuoted k v := by
    simp [singleQuoted, hk.2.1, hv.2]
  unfold fixJSON
  rw [replaceAll_trailingComma_id _ h44, replaceAll_quotedKey_singleQuoted k v hk.1 hv.1,
    replaceAll_quotedValue_singleQuoted k v hk.2.2 hv.1]

theorem continuations_append (x : List Nat) :
    ∀ (n : Nat) (t : List Nat), continuations n t = true → continuations n (t ++ x) = true
  | 0, _, _ => by simp [continuations]
  | _ + 1, [], h => by simp [continuations] at h
  | n + 1, c :: t, h => by
    simp only [continuations, Bool.and_eq_true] at h
    simp only [List.cons_append, continuations, Bool.and_eq_true]
    exact ⟨h.1, continuations_append x n t h.2⟩

/-- A well-formed sequence at the start of a text is the same sequence when
the text goes on. -/
theorem utf8SeqLen_append (c : Nat) (t x : List Nat) (h : utf8SeqLen (c :: t) ≠ 0) :
    utf8SeqLen (c :: (t ++ x)) = utf8SeqLen (c :: t) := by
  cases t with
  | nil => simp [utf8SeqLen] at h
  | cons c1 t =>
    simp only [List.cons_append, utf8SeqLen] at h ⊢
    cases hl : utf8Lead c with
    | none => simp [hl] at h
    | some r =>
      obtain ⟨n, lo, hi⟩ := r
      simp only [hl] at h ⊢
      by_cases hc : lo ≤ c1 ∧ c1 ≤ hi ∧ continuations (n - 2) t = true
      · have hc2 : lo ≤ c1 ∧ c1 ≤ hi ∧ continuations (n - 2) (t ++ x) = true :=
          ⟨hc.1, hc.2.1, continuations_append x _ t hc.2.2⟩
        rw [if_pos hc, if_pos hc2]
      · rw [if_neg hc] at h
        exact absurd rfl h

/-- The parser decodes a string literal made of well-formed UTF-8 without
double quote, backslash and control character as the bytes written. -/
theorem scanPlainAux_append (rest : List Nat) :
    ∀ (body : List Nat) (k : Nat), wellFormedUtf8Aux k body = true →
      (∀ c ∈ body, 32 ≤ c ∧ c ≠ 34 ∧ c ≠ 92) →
      scanPlainAux k (body ++ 34 :: rest) = some (body, rest) := by
  intro body
  induction body with
  | nil =>
    intro k hw _
    cases k with
    | zero => simp [scanPlainAux]
    | succ k => simp [wellFormedUtf8Aux] at hw
  | cons c body ih =>
    intro k hw h
    obtain ⟨h1, h2, h3⟩ := h c (List.mem_cons_self _ _)
    have hb : ∀ x ∈ body, 32 ≤ x ∧ x ≠ 34 ∧ x ≠ 92 :=
      fun x hx => h x (List.mem_cons_of_mem _ hx)
    cases k with
    | succ k =>
      simp only [wellFormedUtf8Aux] at hw
      simp [scanPlainAux, ih k hw hb]
    | zero =>
      have h4 : ¬ (c < 32 ∨ c = 92) := by omega
      by_cases hlt : c < 128
      · simp only [wellFormedUtf8Aux, hlt, if_true] at hw
        simp [scanPlainAux, h2, h4, hlt, ih 0 hw hb]
      · simp only [wellFormedUtf8Aux, hlt, if_false, Bool.and_eq_true, bne_iff_ne, ne_eq] at hw
        have hlen := utf8SeqLen_append c body (34 :: rest) hw.1
        have hne : ¬ utf8SeqLen (c :: (body ++ 34 :: rest)) = 0 := by rw [hlen]; exact hw.1
        show scanPlainAux 0 (c :: (body ++ 34 :: rest)) = some (c :: body, rest)
        rw [scanPlainAux]
        simp only [h2, if_false, h4, hlt, hne]
        rw [hlen, ih _ hw.2 hb]
        rfl

/-- The text `{"k": "v"}` is read by the parser as the object with the one
member `k`: `v`, when `k` and `v` are well-formed UTF-8 and hold no double
quote, no backslash and no control character. -/
theorem parseStringPair_doubleQuoted (k v : List Nat)
    (hk : ∀ c ∈ k, 32 ≤ c ∧ c ≠ 34 ∧ c ≠ 92) (hv : ∀ c ∈ v, 32 ≤ c ∧ c ≠ 34 ∧ c ≠ 92)
    (hku : isWellFormedUtf8 k = true) (hvu : isWellFormedUtf8 v = true) :
    parseStringPair (doubleQuoted k v) = some (k, v) := by
  have e : doubleQuoted k v = 123 :: 34 :: (k ++ 34 :: (58 :: 32 :: 34 :: (v ++ 34 :: [125]))) := by
    simp [doubleQuoted]
  have sk := scanPlainAux_append (58 :: 32 :: 34 :: (v ++ 34 :: [125])) k 0 hku hk
  have sv := scanPlainAux_append [125] v 0 hvu hv
  rw [e]
  simp [parseStringPair, expectByte, isJsonSpace, List.dropWhile_cons, scanPlainString, sk, sv]

/-- C13, counterexample: neither a newline nor the byte `FF` is one of the
bytes the claim excludes, and `fixJSON` rewrites `{'k': 'v'}` to `{"k": "v"}`
for such a key.  With the newline as key, a raw control character stands in
the key's literal and the scanner of the parser reports an error: the result
is not valid JSON.  With `FF` as key, the parser decodes the key as U+FFFD,
the bytes `EF BF BD`: the result is not the object mapping `k` to `v`. -/
theorem fixJSON_control_character_counterexample :
    (∀ c ∈ [10], isQuoteFree c = true) ∧ (∀ c ∈ [255], isQuoteFree c = true) ∧
    (∀ c ∈ [120], isQuoteFree c = true) ∧
    fixJSON (singleQuoted [10] [120]) = [123, 34, 10, 34, 58, 32, 34, 120, 34, 125] ∧
    scanStringLiteral 0 ((fixJSON (singleQuoted [10] [120])).drop 2) = none ∧
    parseStringPair (fixJSON (singleQuoted [10] [120])) = none ∧
    fixJSON (singleQuoted [255] [120]) = [123, 34, 255, 34, 58, 32, 34, 120, 34, 125] ∧
    parseStringPair (fixJSON (singleQuoted [255] [120])) = some ([239, 191, 189], [120]) ∧
    parseStringPair (fixJSON (singleQuoted [255] [120])) ≠ some ([255], [120]) := by
  decide

/-- C13, amended: for all `k` and `v` without single quote, double quote,
comma, colon and backslash, `fixJSON` turns `{'k': 'v'}` into `{"k": "v"}`,
key and value both rewritten to double-quoted strings; when `k` and `v` are
moreover well-formed UTF-8 without control characters, the result is valid
JSON for the object mapping `k` to `v`; and `{'a': 'x'}` becomes
`{"a": "x"}`. -/
theorem fixJSON_single_quotes :
    (∀ k v : List Nat, (∀ c ∈ k, isQuoteFree c = true) → (∀ c ∈ v, isQuoteFree c = true) →
      fixJSON (singleQuoted k v) = doubleQuoted k v) ∧
    (∀ k v : List Nat, (∀ c ∈ k, isQuoteFree c = true) → (∀ c ∈ v, isQuoteFree c = true) →
      (∀ c ∈ k, 32 ≤ c) → (∀ c ∈ v, 32 ≤ c) →
      isWellFormedUtf8 k = true → isWellFormedUtf8 v = true →
      parseStringPair (fixJSON (singleQuoted k v)) = some (k, v)) ∧
    fixJSON docSingleQuotes = [123, 34, 97, 34, 58, 32, 34, 120, 34, 125] := by
  have hfix : ∀ k v : List Nat, (∀ c ∈ k, isQuoteFree c = true) →
      (∀ c ∈ v, isQuoteFree c = true) → fixJSON (singleQuoted k v) = doubleQuoted k v := by
    intro k v hk hv
    obtain ⟨k1, _, k3, k4, _⟩ := not_mem_of_isQuoteFree hk
    obtain ⟨v1, _, v3, _, _⟩ := not_mem_of_isQuoteFree hv
    exact fixJSON_singleQuoted k v ⟨k1, k3, k4⟩ ⟨v1, v3⟩
  refine ⟨hfix, ?_, by decide⟩
  intro k v hk hv hk2 hv2 hku hvu
  rw [hfix k v hk hv]
  apply parseStringPair_doubleQuoted _ _ _ _ hku hvu
  · intro c hc
    have := isQuoteFree_iff.mp (hk c hc)
    exact ⟨hk2 c hc, this.2.1, this.2.2.2.2⟩
  · intro c hc
    have := isQuoteFree_iff.mp (hv c hc)
    exact ⟨hv2 c hc, this.2.1, this.2.2.2.2⟩

/-- The repair of `{'né': 'Bob'}`, whose key ends with a two-byte character. -/
theorem fixJSON_single_quotes_witness :
    fixJSON (singleQuoted [110, 195, 169] [66, 111, 98])
      = doubleQuoted [110, 195, 169] [66, 111, 98] ∧
    parseStringPair (fixJSON (singleQuoted [110, 195, 169] [66, 111, 98]))
      = some ([110, 195, 169], [66, 111, 98]) :=
  ⟨fixJSON_single_quotes.1 [110, 195, 169] [66, 111, 98] (by decide) (by decide),
   fixJSON_single_quotes.2.1 [110, 195, 169] [66, 111, 98] (by decide) (by decide)
     (by decide) (by decide) (by decide) (by decide)⟩

/-- C15: the repair is unsound on correct input: `{"a": "x: 'y'"}` is valid
JSON, the object mapping `a` to a string that holds apostrophes, and
`fixJSON` does not return it unchanged but `{"a": "x: "y""}`, which is not
valid JSON any more: the value's literal ends after `x: ` and the byte `y`
follows it. -/
theorem fixJSON_rewrites_valid_document :
    parseStringPair docApostrophes = some ([97], [120, 58, 32, 39, 121, 39]) ∧
    39 ∈ [120, 58, 32, 39, 121, 39] ∧
    fixJSON docApostrophes
      = [123, 34, 97, 34, 58, 32, 34, 120, 58, 32, 34, 121, 34, 34, 125] ∧
    fixJSON docApostrophes ≠ docApostrophes ∧
    scanPlainString ((fixJSON docApostrophes).drop 7) = some ([120, 58, 32], [121, 34, 34, 125]) ∧
    parseStringPair (fixJSON docApostrophes) = none := by
  decide

/-! ### `findPosition` at and beyond the end of the input -/

theorem newlineCount_append_singleton (pre : List Nat) (b : Nat) :
    newlineCount (pre ++ [b]) = newlineCount pre + (if b = 10 then 1 else 0) := by
  unfold newlineCount
  rw [List.count_append]
  by_cases hb : b = 10
  · simp [hb]
  · have hb2 : (10 : Nat) ≠ b := fun e => hb e.symm
    simp [hb, List.count_cons_of_ne hb2]

theorem bytesAfterLastNewline_append_singleton (pre : List Nat) (b : Nat) :
    bytesAfterLastNewline (pre ++ [b])
      = if b = 10 then 0 else bytesAfterLastNewline pre + 1 := by
  unfold bytesAfterLastNewline
  rw [List.reverse_append, List.reverse_singleton, List.singleton_append]
  by_cases hb : b = 10
  · simp [hb]
  · simp [List.takeWhile_cons, hb]

/-- The position one byte further: the next column, or column 1 of the next
line after a newline. -/
theorem findPosition_last (pre : List Nat) (b : Nat) :
    findPosition (pre ++ [b]) ((pre ++ [b]).length : Int)
      = if b = 10 then ((findPosition (pre ++ [b]) (pre.length : Int)).1 + 1, 1)
        else ((findPosition (pre ++ [b]) (pre.length : Int)).1,
              (findPosition (pre ++ [b]) (pre.length : Int)).2 + 1) := by
  have c1 : clampOffset (pre ++ [b]) ((pre ++ [b]).length : Int) = (pre ++ [b]).length :=
    clampOffset_of_le _ _ (le_refl _)
  have c2 : clampOffset (pre ++ [b]) (pre.length : Int) = pre.length := by
    unfold clampOffset
    simp only [List.length_append, List.length_singleton]
    omega
  rw [findPosition_eq, findPosition_eq, c1, c2, List.take_length, List.take_left,
    newlineCount_append_singleton, bytesAfterLastNewline_append_singleton]
  by_cases hb : b = 10
  · simp [hb]
    omega
  · simp [hb]
    omega

/-- C14, counterexample: on the input `ab`, the offset 2 gives line 1,
column 3, and the offset 1 of the last character gives line 1, column 2. -/
theorem findPosition_docAB_counterexample :
    findPosition docAB 2 = (1, 3) ∧
    findPosition docAB ((docAB.length : Int) - 1) = (1, 2) ∧
    findPosition docAB 2 ≠ findPosition docAB ((docAB.length : Int) - 1) := by
  decide

/-- C14, amended: an offset at or beyond the end of the input gives the
position just after the last byte: the pair of `offset = len(input)`, which
for a non-empty input is the next column after the last character, or
column 1 of the next line when the last byte is a newline; it is never the
position of the last character. -/
theorem findPosition_beyond_end :
    (∀ (input : List Nat) (offset : Int), (input.length : Int) ≤ offset →
      findPosition input offset = findPosition input (input.length : Int)) ∧
    (∀ (pre : List Nat) (b : Nat), b ≠ 10 →
      findPosition (pre ++ [b]) ((pre ++ [b]).length : Int)
        = ((findPosition (pre ++ [b]) (pre.length : Int)).1,
           (findPosition (pre ++ [b]) (pre.length : Int)).2 + 1)) ∧
    (∀ pre : List Nat,
      findPosition (pre ++ [10]) ((pre ++ [10]).length : Int)
        = ((findPosition (pre ++ [10]) (pre.length : Int)).1 + 1, 1)) ∧
    (∀ (pre : List Nat) (b : Nat),
      findPosition (pre ++ [b]) ((pre ++ [b]).length : Int)
        ≠ findPosition (pre ++ [b]) (pre.length : Int)) := by
  refine ⟨?_, ?_, ?_, ?_⟩
  · intro input offset h
    rw [findPosition_eq, findPosition_eq, clampOffset_of_le input offset h,
      clampOffset_of_le input _ (le_refl _)]
  · intro pre b hb
    rw [findPosition_last, if_neg hb]
  · intro pre
    rw [findPosition_last, if_pos rfl]
  · intro pre b h
    rw [findPosition_last] at h
    by_cases hb : b = 10
    · rw [if_pos hb] at h
      have := congrArg Prod.fst h
      simp at this
    · rw [if_neg hb] at h
      have := congrArg Prod.snd h
      simp at this

/-- The end of `ab`: offsets 2 and 9, and the position after `b`. -/
theorem findPosition_beyond_end_witness :
    findPosition docAB 9 = findPosition docAB (docAB.length : Int) ∧
    findPosition ([97] ++ [98]) (([97] ++ [98] : List Nat).length : Int)
        = ((findPosition ([97] ++ [98]) (([97] : List Nat).length : Int)).1,
           (findPosition ([97] ++ [98]) (([97] : List Nat).length : Int)).2 + 1) :=
  ⟨findPosition_beyond_end.1 docAB 9 (by decide), findPosition_beyond_end.2.1 [97] 98 (by decide)⟩

/-! ### The guard of `printErrorContext` -/

/-- C18, refuted: there are no input and offset for which the line number of
`findPosition` exceeds the number of lines of the input split on newlines. -/
theorem printErrorContext_no_silent_branch :
    ¬ ∃ (input : List Nat) (offset : Int),
      ((splitLines input).length : Int) < (findPosition input offset).1 := by
  rintro ⟨input, offset, h⟩
  have := findPosition_line_le input offset
  omega

/-- C18, amended: the silent branch of the error context cannot occur: for
every input and offset the line number of `findPosition` is at most the
number of lines of the input split on newlines, equal to it for an offset at
or beyond the end of the input, and `printErrorContext` prints a line of the
input and the caret line. -/
theorem printErrorContext_always_prints (input : List Nat) (offset : Int) :
    (findPosition input offset).1 ≤ ((splitLines input).length : Int) ∧
    ((input.length : Int) ≤ offset →
      (findPosition input offset).1 = ((splitLines input).length : Int)) ∧
    ∃ lineContent ∈ splitLines input,
      printErrorContext input offset
        = some ([32, 32] ++ lineContent ++ [10] ++ [32, 32]
            ++ List.replicate ((findPosition input offset).2 - 1).toNat 32 ++ caretText ++ [10]) := by
  have hle := findPosition_line_le input offset
  obtain ⟨h1, h2⟩ := findPosition_pos input offset
  refine ⟨hle, ?_, ?_⟩
  · intro h
    rw [findPosition_eq, clampOffset_of_le input offset h, List.take_length, splitLines_length]
    simp only
    omega
  · have h5 : ((findPosition input offset).1 - 1).toNat < (splitLines input).length := by omega
    refine ⟨(splitLines input)[((findPosition input offset).1 - 1).toNat],
      List.getElem_mem h5, ?_⟩
    unfold printErrorContext
    have h3 : ¬ ((findPosition input offset).1 - 1 < 0) := by omega
    have h4 : ¬ ((findPosition input offset).2 - 1 < 0) := by omega
    simp only [hle, if_true, h3, if_false, List.getElem?_eq_getElem h5, h4]

/-- The line number at the end of a two-line text. -/
theorem printErrorContext_always_prints_witness :
    (findPosition docTwoLines 3).1 = ((splitLines docTwoLines).length : Int) :=
  (printErrorContext_always_prints docTwoLines 3).2.1 (by decide)

/-! ### `parseArgs` -/

theorem setFlag_fields (f : Flags) (c : Nat) :
    setFlag f c = {
      flagCompact := f.flagCompact || c == 99
      flagSortKeys := f.flagSortKeys || c == 115
      flagCopy := f.flagCopy || c == 67
      flagFix := f.flagFix || c == 102
      flagNoColor := f.flagNoColor
      flagHelp := f.flagHelp || c == 104
      flagMonochrome := f.flagMonochrome || c == 109 } := by
  obtain ⟨a1, a2, a3, a4, a5, a6, a7⟩ := f
  unfold setFlag
  split_ifs with h1 h2 h3 h4 h5 h6 <;> simp_all

theorem foldl_setFlag (l : List Nat) : ∀ f : Flags,
    l.foldl setFlag f = {
      flagCompact := f.flagCompact || l.contains 99
      flagSortKeys := f.flagSortKeys || l.contains 115
      flagCopy := f.flagCopy || l.contains 67
      flagFix := f.flagFix || l.contains 102
      flagNoColor := f.flagNoColor
      flagHelp := f.flagHelp || l.contains 104
      flagMonochrome := f.flagMonochrome || l.contains 109 } := by
  induction l with
  | nil => intro f; simp
  | cons c l ih =>
    intro f
    rw [List.foldl_cons, ih, setFlag_fields]
    simp only [List.contains_cons, Bool.or_assoc, Flags.mk.injEq]
    refine ⟨?_, ?_, ?_, ?_, trivial, ?_, ?_⟩ <;>
      (congr 1; rw [Bool.beq_comm])

theorem hasPrefix_dash (a : List Nat) : hasPrefix a [45] = (a.head? == some 45) := by
  cases a with
  | nil => rfl
  | cons c t =>
    by_cases h : c = 45
    · simp [hasPrefix, List.isPrefixOf, h]
    · have h2 : ¬ 45 = c := fun e => h e.symm
      simp [hasPrefix, List.isPrefixOf, h, h2]

theorem hasPrefix_http_of_dash (a : List Nat) (h : hasPrefix a [45] = true) :
    hasPrefix a [104, 116, 116, 112] = false := by
  cases a with
  | nil => rfl
  | cons c t =>
    have hc : c = 45 := by
      rw [hasPrefix_dash] at h
      simpa using h
    subst hc
    simp [hasPrefix, List.isPrefixOf]

/-- The loop of `parseArgs` in closed form. -/
theorem parseArgsLoop_eq (args : List (List Nat)) : ∀ (f : Flags) (remaining : List (List Nat)),
    parseArgsLoop args f remaining = ({
      flagCompact := f.flagCompact || flagGiven args 99
      flagSortKeys := f.flagSortKeys || flagGiven args 115
      flagCopy := f.flagCopy || flagGiven args 67
      flagFix := f.flagFix || flagGiven args 102
      flagNoColor := f.flagNoColor
      flagHelp := f.flagHelp || flagGiven args 104
      flagMonochrome := f.flagMonochrome || flagGiven args 109 },
      remaining ++ args.filter (fun a => !(a.head? == some 45))) := by
  induction args with
  | nil => intro f remaining; simp [parseArgsLoop, flagGiven]
  | cons arg rest ih =>
    intro f remaining
    by_cases h : hasPrefix arg [45] = true
    · have h2 := hasPrefix_http_of_dash arg h
      have h3 : (arg.head? == some 45) = true := by rw [← hasPrefix_dash]; exact h
      have h4 : arg.head? = some 45 := by simpa using h3
      simp only [parseArgsLoop, h, h2, Bool.not_false, Bool.and_self, if_true, ih, foldl_setFlag]
      simp [flagGiven, List.any_cons, h4, Bool.or_assoc]
    · have h3 : (arg.head? == some 45) = false := by
        rw [← hasPrefix_dash]; simpa using h
      have h4 : ¬ arg.head? = some 45 := by simpa using h3
      simp only [parseArgsLoop, h, Bool.false_and, if_false, ih]
      simp [flagGiven, List.any_cons, h4]

/-- C16: `parseArgs` reads each argument that begins with `'-'` as a bundle
of one-character flags after that `'-'`: `c` sets compact, `s` sort-keys,
`C` copy, `f` fix, `m` monochrome, `h` help, any other character does
nothing; a flag is on after the call exactly when it was on before or one of
the bundles holds its character, so no flag is ever cleared; the slice
returned holds exactly the arguments that do not begin with `'-'`, in their
order; and `-cs data.json` sets compact and sort-keys and returns
`data.json`. -/
theorem parseArgs_flags :
    (∀ (args : List (List Nat)) (noColorEnv : List Nat) (f : Flags),
      (parseArgs args noColorEnv f).2 = args.filter (fun a => !(a.head? == some 45)) ∧
      (parseArgs args noColorEnv f).1.flagCompact = (f.flagCompact || flagGiven args 99) ∧
      (parseArgs args noColorEnv f).1.flagSortKeys = (f.flagSortKeys || flagGiven args 115) ∧
      (parseArgs args noColorEnv f).1.flagCopy = (f.flagCopy || flagGiven args 67) ∧
      (parseArgs args noColorEnv f).1.flagFix = (f.flagFix || flagGiven args 102) ∧
      (parseArgs args noColorEnv f).1.flagMonochrome = (f.flagMonochrome || flagGiven args 109) ∧
      (parseArgs args noColorEnv f).1.flagHelp = (f.flagHelp || flagGiven args 104) ∧
      (parseArgs args noColorEnv f).1.flagNoColor
        = (f.flagNoColor || decide (noColorEnv ≠ []))) ∧
    parseArgs argsCompactSort [] noFlags
      = ({ noFlags with flagCompact := true, flagSortKeys := true },
         [[100, 97, 116, 97, 46, 106, 115, 111, 110]]) := by
  refine ⟨?_, by decide⟩
  intro args noColorEnv f
  unfold parseArgs
  rw [parseArgsLoop_eq]
  by_cases h : noColorEnv = []
  · simp [h]
  · simp [h]

/-! ### Literal tokens -/

theorem colorizeStep_true (s : List Nat) (st : ScanState) (tail : List Nat)
    (hout : st.inString = false) (h : s.drop st.i = litTrue ++ tail) :
    colorizeStep s st = some { st with
      result := st.result ++ colorBool ++ litTrue ++ colorReset
      i := st.i + 4 } := by
  obtain ⟨hc, _⟩ := getElem?_of_drop (show s.drop st.i = 116 :: ([114, 117, 101] ++ tail) from h)
  unfold colorizeStep
  rw [hc]
  simp [hout, h, isNumberStart, litTrue, List.isPrefixOf]

theorem colorizeStep_false (s : List Nat) (st : ScanState) (tail : List Nat)
    (hout : st.inString = false) (h : s.drop st.i = litFalse ++ tail) :
    colorizeStep s st = some { st with
      result := st.result ++ colorBool ++ litFalse ++ colorReset
      i := st.i + 5 } := by
  obtain ⟨hc, _⟩ :=
    getElem?_of_drop (show s.drop st.i = 102 :: ([97, 108, 115, 101] ++ tail) from h)
  unfold colorizeStep
  rw [hc]
  simp [hout, h, isNumberStart, litTrue, litFalse, List.isPrefixOf]

theorem colorizeStep_null (s : List Nat) (st : ScanState) (tail : List Nat)
    (hout : st.inString = false) (h : s.drop st.i = litNull ++ tail) :
    colorizeStep s st = some { st with
      result := st.result ++ colorNull ++ litNull ++ colorReset
      i := st.i + 4 } := by
  obtain ⟨hc, _⟩ :=
    getElem?_of_drop (show s.drop st.i = 110 :: ([117, 108, 108] ++ tail) from h)
  unfold colorizeStep
  rw [hc]
  simp [hout, h, isNumberStart, litTrue, litFalse, litNull, List.isPrefixOf]

/-- C17: outside a string, where the rest of the text starts with `true`,
`false` or `null`, one iteration emits the boolean colour (the null colour
for `null`), the 4 or 5 characters of the literal and one reset, and leaves
the cursor right after the literal; and the texts `true`, `false` and `null`
are coloured as one token each. -/
theorem colorize_literal_tokens :
    (∀ (s : List Nat) (st : ScanState) (tail : List Nat), st.inString = false →
      s.drop st.i = litTrue ++ tail →
      colorizeStep s st = some { st with
        result := st.result ++ colorBool ++ litTrue ++ colorReset
        i := st.i + 4 }) ∧
    (∀ (s : List Nat) (st : ScanState) (tail : List Nat), st.inString = false →
      s.drop st.i = litFalse ++ tail →
      colorizeStep s st = some { st with
        result := st.result ++ colorBool ++ litFalse ++ colorReset
        i := st.i + 5 }) ∧
    (∀ (s : List Nat) (st : ScanState) (tail : List Nat), st.inString = false →
      s.drop st.i = litNull ++ tail →
      colorizeStep s st = some { st with
        result := st.result ++ colorNull ++ litNull ++ colorReset
        i := st.i + 4 }) ∧
    colorize litTrue = some (colorBool ++ litTrue ++ colorReset) ∧
    colorize litFalse = some (colorBool ++ litFalse ++ colorReset) ∧
    colorize litNull = some (colorNull ++ litNull ++ colorReset) :=
  ⟨colorizeStep_true, colorizeStep_false, colorizeStep_null, by decide, by decide, by decide⟩

/-- The literal `true` in the text `[true]`, entered after the bracket. -/
theorem colorize_literal_tokens_witness :
    colorizeStep [91, 116, 114, 117, 101, 93] ⟨1, false, false, []⟩ = some {
      i := 1 + 4
      inString := false
      isKey := false
      result := [] ++ colorBool ++ litTrue ++ colorReset } :=
  colorize_literal_tokens.1 [91, 116, 114, 117, 101, 93] ⟨1, false, false, []⟩ [93] rfl rfl

/-! ### The markers in the output of `colorize` -/

theorem markerTrace_colorReset (rest : List Nat) :
    markerTrace 0 (colorReset ++ rest) = false :: markerTrace 0 rest := by
  simp [markerTrace, markerKindAt, markers, colorReset, colorKey, colorString, colorNumber,
    colorBool, colorNull, colorBrace, List.isPrefixOf]

theorem markerTrace_colorKey (rest : List Nat) :
    markerTrace 0 (colorKey ++ rest) = true :: markerTrace 0 rest := by
  simp [markerTrace, markerKindAt, markers, colorReset, colorKey, colorString, colorNumber,
    colorBool, colorNull, colorBrace, List.isPrefixOf]

theorem markerTrace_colorString (rest : List Nat) :
    markerTrace 0 (colorString ++ rest) = true :: markerTrace 0 rest := by
  simp [markerTrace, markerKindAt, markers, colorReset, colorKey, colorString, colorNumber,
    colorBool, colorNull, colorBrace, List.isPrefixOf]

theorem markerTrace_colorNumber (rest : List Nat) :
    markerTrace 0 (colorNumber ++ rest) = true :: markerTrace 0 rest := by
  simp [markerTrace, markerKindAt, markers, colorReset, colorKey, colorString, colorNumber,
    colorBool, colorNull, colorBrace, List.isPrefixOf]

theorem markerTrace_colorBool (rest : List Nat) :
    markerTrace 0 (colorBool ++ rest) = true :: markerTrace 0 rest := by
  simp [markerTrace, markerKindAt, markers, colorReset, colorKey, colorString, colorNumber,
    colorBool, colorNull, colorBrace, List.isPrefixOf]

theorem markerTrace_colorNull (rest : List Nat) :
    markerTrace 0 (colorNull ++ rest) = true :: markerTrace 0 rest := by
  simp [markerTrace, markerKindAt, markers, colorReset, colorKey, colorString, colorNumber,
    colorBool, colorNull, colorBrace, List.isPrefixOf]

theorem markerTrace_colorBrace (rest : List Nat) :
    markerTrace 0 (colorBrace ++ rest) = true :: markerTrace 0 rest := by
  simp [markerTrace, markerKindAt, markers, colorReset, colorKey, colorString, colorNumber,
    colorBool, colorNull, colorBrace, List.isPrefixOf]

theorem markerTrace_plain (c : Nat) (rest : List Nat) (hc : c ≠ 27) :
    markerTrace 0 (c :: rest) = markerTrace 0 rest := by
  have h : (27 : Nat) ≠ c := fun e => hc e.symm
  simp [markerTrace, markerKindAt, markers, colorReset, colorKey, colorString, colorNumber,
    colorBool, colorNull, colorBrace, List.isPrefixOf, h]

theorem markerTrace_plain_append (l rest : List Nat) (hl : ∀ c ∈ l, c ≠ 27) :
    markerTrace 0 (l ++ rest) = markerTrace 0 rest := by
  induction l with
  | nil => rfl
  | cons c l ih =>
    have hc : c ≠ 27 := hl c (List.mem_cons_self _ _)
    have ht : ∀ x ∈ l, x ≠ 27 := fun x hx => hl x (List.mem_cons_of_mem _ hx)
    rw [List.cons_append, markerTrace_plain c _ hc, ih ht]

theorem byteToString_no_esc {c : Nat} (hc : c ≠ 27) : ∀ x ∈ byteToString c, x ≠ 27 := by
  intro x hx
  unfold byteToString at hx
  split_ifs at hx with h
  · simp only [List.mem_singleton] at hx
    omega
  · simp only [List.mem_cons, List.mem_singleton, List.not_mem_nil, or_false] at hx
    omega

theorem flatMap_byteToString_no_esc (l : List Nat) (hl : ∀ c ∈ l, c ≠ 27) :
    ∀ x ∈ l.flatMap byteToString, x ≠ 27 := by
  intro x hx
  obtain ⟨c, hc, hxc⟩ := List.mem_flatMap.mp hx
  exact byteToString_no_esc (hl c hc) x hxc

theorem nesting_append (tr1 tr2 : List Bool) : ∀ p : Bool,
    nesting p (tr1 ++ tr2) = (nesting p tr1).bind (fun q => nesting q tr2) := by
  induction tr1 with
  | nil => intro p; rfl
  | cons m tr1 ih =>
    intro p
    simp only [List.cons_append, nesting]
    split_ifs
    · rfl
    · exact ih m

theorem oddQuotes_append (a b : List Nat) :
    oddQuotes (a ++ b) = xor (oddQuotes a) (oddQuotes b) := by
  unfold oddQuotes
  rw [List.count_append]
  rcases Nat.mod_two_eq_zero_or_one (List.count 34 a) with h1 | h1 <;>
    rcases Nat.mod_two_eq_zero_or_one (List.count 34 b) with h2 | h2 <;>
    simp [Nat.add_mod, h1, h2]

theorem oddQuotes_of_not_mem (l : List Nat) (h : 34 ∉ l) : oddQuotes l = false := by
  simp [oddQuotes, List.count_eq_zero_of_not_mem h]

/-- On a text without ESC, one iteration appends a chunk whose markers follow
the nesting rule from the in-string flag before it to the flag after it, and
the flag changes exactly when the bytes passed hold an odd number of double
quotes. -/
theorem colorizeStep_markers (s : List Nat) (hs : 27 ∉ s) (st : ScanState)
    (h : st.i < s.length) :
    ∃ st1 chunk tr n, colorizeStep s st = some st1 ∧ st1.result = st.result ++ chunk ∧
      st1.i = st.i + n ∧
      (∀ X, markerTrace 0 (chunk ++ X) = tr ++ markerTrace 0 X) ∧
      nesting st.inString tr = some st1.inString ∧
      st1.inString = xor st.inString (oddQuotes ((s.drop st.i).take n)) := by
  have hc : s[st.i]? = some s[st.i] := List.getElem?_eq_getElem h
  have hmem : s[st.i] ∈ s := List.getElem_mem h
  have he : s[st.i] ≠ 27 := fun e => hs (e ▸ hmem)
  have hb := byteToString_no_esc he
  have ht1 : (s.drop st.i).take 1 = [s[st.i]] := by
    rw [drop_eq_cons_of_getElem? hc]; rfl
  unfold colorizeStep
  rw [hc]
  simp only
  split_ifs with h1 h2 h3 h4 h5 h6 h7 h8 h9
  · refine ⟨_, byteToString s[st.i] ++ colorReset, [false], 1, rfl, by simp, rfl, ?_, ?_, ?_⟩
    · intro X
      rw [List.append_assoc, markerTrace_plain_append _ _ hb, markerTrace_colorReset]
      rfl
    · simp [nesting, h2]
    · simp [ht1, h1, h2, oddQuotes]
  · refine ⟨_, colorKey ++ byteToString s[st.i], [true], 1, rfl, by simp, rfl, ?_, ?_, ?_⟩
    · intro X
      rw [List.append_assoc, markerTrace_colorKey, markerTrace_plain_append _ _ hb]
      rfl
    · simp [nesting, h2]
    · simp [ht1, h1, h2, oddQuotes]
  · refine ⟨_, colorString ++ byteToString s[st.i], [true], 1, rfl, by simp, rfl, ?_, ?_, ?_⟩
    · intro X
      rw [List.append_assoc, markerTrace_colorString, markerTrace_plain_append _ _ hb]
      rfl
    · simp [nesting, h2]
    · simp [ht1, h1, h2, oddQuotes]
  · refine ⟨_, byteToString s[st.i], [], 1, rfl, rfl, rfl, ?_, ?_, ?_⟩
    · intro X
      rw [markerTrace_plain_append _ _ hb]
      rfl
    · simp [nesting]
    · simp [ht1, oddQuotes, List.count_cons, h1]
  · refine ⟨_, colorBrace ++ byteToString s[st.i] ++ colorReset, [true, false], 1, rfl,
      by simp, rfl, ?_, ?_, ?_⟩
    · intro X
      rw [List.append_assoc, List.append_assoc, markerTrace_colorBrace,
        markerTrace_plain_append _ _ hb, markerTrace_colorReset]
      rfl
    · simp [nesting, h4]
    · simp [ht1, oddQuotes, List.count_cons, h1]
  · have hrun : ∀ c ∈ numberRun (s.drop st.i), c ≠ 27 := by
      intro c hc2 e
      have := List.mem_takeWhile_imp hc2
      rw [e] at this
      simp [isNumberChar] at this
    have hrun34 : 34 ∉ numberRun (s.drop st.i) := by
      intro hc2
      have := List.mem_takeWhile_imp hc2
      simp [isNumberChar] at this
    refine ⟨_, colorNumber ++ (numberRun (s.drop st.i)).flatMap byteToString ++ colorReset,
      [true, false], (numberRun (s.drop st.i)).length, rfl, by simp, rfl, ?_, ?_, ?_⟩
    · intro X
      rw [List.append_assoc, List.append_assoc, markerTrace_colorNumber,
        markerTrace_plain_append _ _ (flatMap_byteToString_no_esc _ hrun),
        markerTrace_colorReset]
      rfl
    · simp [nesting, h4]
    · rw [take_numberRun, oddQuotes_of_not_mem _ hrun34]
      simp
  · refine ⟨_, colorBool ++ litTrue ++ colorReset, [true, false], 4, rfl, by simp, rfl,
      ?_, ?_, ?_⟩
    · intro X
      rw [List.append_assoc, List.append_assoc, markerTrace_colorBool,
        markerTrace_plain_append litTrue _ (by decide), markerTrace_colorReset]
      rfl
    · simp [nesting, h4]
    · have ht : (s.drop st.i).take 4 = litTrue := take_of_isPrefixOf h7
      rw [ht]
      simp [oddQuotes, litTrue]
  · refine ⟨_, colorBool ++ litFalse ++ colorReset, [true, false], 5, rfl, by simp, rfl,
      ?_, ?_, ?_⟩
    · intro X
      rw [List.append_assoc, List.append_assoc, markerTrace_colorBool,
        markerTrace_plain_append litFalse _ (by decide), markerTrace_colorReset]
      rfl
    · simp [nesting, h4]
    · have ht : (s.drop st.i).take 5 = litFalse := take_of_isPrefixOf h8
      rw [ht]
      simp [oddQuotes, litFalse]
  · refine ⟨_, colorNull ++ litNull ++ colorReset, [true, false], 4, rfl, by simp, rfl,
      ?_, ?_, ?_⟩
    · intro X
      rw [List.append_assoc, List.append_assoc, markerTrace_colorNull,
        markerTrace_plain_append litNull _ (by decide), markerTrace_colorReset]
      rfl
    · simp [nesting, h4]
    · have ht : (s.drop st.i).take 4 = litNull := take_of_isPrefixOf h9
      rw [ht]
      simp [oddQuotes, litNull]
  · refine ⟨_, byteToString s[st.i], [], 1, rfl, rfl, rfl, ?_, ?_, ?_⟩
    · intro X
      rw [markerTrace_plain_append _ _ hb]
      rfl
    · simp [nesting]
    · simp [ht1, oddQuotes, List.count_cons, h1]

/-- The loop on a text without ESC: the markers of the output it appends
follow the nesting rule, and the in-string flag at the end tells whether the
bytes read held an odd number of double quotes. -/
theorem colorizeLoop_markers (s : List Nat) (hs : 27 ∉ s) :
    ∀ (fuel : Nat) (st st2 : ScanState), colorizeLoop s fuel st = some st2 →
      ∃ out, st2.result = st.result ++ out ∧
        nesting st.inString (markerTrace 0 out) = some st2.inString ∧
        st2.inString = xor st.inString (oddQuotes (s.drop st.i)) := by
  intro fuel
  induction fuel with
  | zero =>
    intro st st2 h
    by_cases hlt : st.i < s.length
    · simp [colorizeLoop, hlt] at h
    · simp only [colorizeLoop, hlt, if_false, Option.some.injEq] at h
      subst h
      refine ⟨[], by simp, by simp [markerTrace, nesting], ?_⟩
      rw [List.drop_eq_nil_of_le (by omega)]
      simp [oddQuotes]
  | succ n ih =>
    intro st st2 h
    by_cases hlt : st.i < s.length
    · obtain ⟨st1, chunk, tr, k, e1, e2, e3, e4, e5, e6⟩ := colorizeStep_markers s hs st hlt
      simp only [colorizeLoop, hlt, if_true, e1, Option.some_bind] at h
      obtain ⟨out, o1, o2, o3⟩ := ih st1 st2 h
      refine ⟨chunk ++ out, by rw [o1, e2, List.append_assoc], ?_, ?_⟩
      · rw [e4, nesting_append, e5]
        exact o2
      · have hsplit : s.drop st.i = (s.drop st.i).take k ++ s.drop st1.i := by
          rw [e3, ← List.drop_drop, List.take_append_drop]
        rw [o3, e6, hsplit, oddQuotes_append, ← hsplit]
        cases st.inString <;> cases oddQuotes (List.take k (List.drop st.i s)) <;>
          cases oddQuotes (List.drop st1.i s) <;> rfl
    · simp only [colorizeLoop, hlt, if_false, Option.some.injEq] at h
      subst h
      refine ⟨[], by simp, by simp [markerTrace, nesting], ?_⟩
      rw [List.drop_eq_nil_of_le (by omega)]
      simp [oddQuotes]

/-- C19: on every text without an ESC byte, the markers of the output of
`colorize`, read from left to right, follow the nesting rule from the start:
colour markers and resets alternate, a colour marker first, none emitted
while another is pending and no reset without a pending colour; and no
colour is pending at the end exactly when the text holds an even number of
double quotes. -/
theorem colorize_markers_nested (s : List Nat) (hs : 27 ∉ s) :
    ∃ r pending, colorize s = some r ∧ nesting false (markerTrace 0 r) = some pending ∧
      (pending = false ↔ Even (s.count 34)) := by
  obtain ⟨st2, h2, _⟩ :=
    colorizeLoop_total s s.length initState (Nat.zero_le _) (by simp [initState])
  obtain ⟨out, o1, o2, o3⟩ := colorizeLoop_markers s hs s.length initState st2 h2
  have hr : st2.result = out := by simpa [initState] using o1
  refine ⟨st2.result, st2.inString, by simp [colorize, h2], ?_, ?_⟩
  · rw [hr]
    simpa [initState] using o2
  · rw [o3]
    simp only [initState, List.drop_zero, Bool.false_xor, oddQuotes]
    rw [Nat.even_iff]
    rcases Nat.mod_two_eq_zero_or_one (List.count 34 s) with h | h <;> simp [h]

/-- The markers of the coloured line `"name": "Bob"`. -/
theorem colorize_markers_nested_witness :
    ∃ r pending, colorize docNameBob = some r ∧
      nesting false (markerTrace 0 r) = some pending ∧
      (pending = false ↔ Even (docNameBob.count 34)) :=
  colorize_markers_nested docNameBob (by decide)

end Jfmt
